import Mathlib

/-!
# Verification of the go-collatinus Latin morphological analyzer

This file gives a shallow embedding, in Lean 4, of the core of the
`cours-de-latin/go-collatinus` repository (a Go re-implementation of the
Collatinus-11 lemmatizer), and settles a list of claims about it.

Modelling conventions:

* Go strings are modelled as `List Char` (rune sequences).  All the string
  operations the embedded code performs (`strings.HasPrefix`, `HasSuffix`,
  `Count`, byte indexing against ASCII characters, suffix/prefix slicing by
  the length of a valid-UTF-8 pattern) agree between the byte level and the
  rune level, because UTF-8 is self-synchronizing and the patterns involved
  are valid UTF-8; so the rune-level model is faithful.
* Go `map` lookups are modelled by association lists (`lookupA`); Go's
  nondeterministic map iteration order is fixed to list order, which is
  irrelevant to every claim below (they are membership / emptiness /
  termination properties).
* Go pointer identity (`*Model`, `*Lemma`) is modelled by numeric ids.
* `unicode.ToLower`/`ToUpper`/`IsUpper`/`IsLower` and `strings.ToLower`
  are modelled character-wise on the Latin repertoire the analyzer uses
  (ASCII, Latin-1 letters, the macron/breve letters of `ch.cpp`); outside
  that repertoire they act as the identity.
* The recursive functions of `lemmatize.go` (`lemmatizeRaw`,
  `lemmatizeMEtape`) are embedded fuel-indexed: `none` means "fuel
  exhausted".  Termination of the Go code is then the theorem that for
  every input some fuel suffices.
-/

namespace GoCollatinus

/-- String literal to rune-list helper. -/
def tl (s : String) : List Char := s.data

/-- Association-list lookup, modelling a Go `map` read with `ok` flag.
`lookupA k m = some v` corresponds to `v, ok := m[k]` with `ok = true`. -/
def lookupA {α β : Type} [DecidableEq α] (k : α) : List (α × β) → Option β
  | [] => none
  | (k', v) :: t => if k = k' then some v else lookupA k t

theorem lookupA_eq_none {α β : Type} [DecidableEq α] (k : α)
    (m : List (α × β)) (h : k ∉ m.map Prod.fst) : lookupA k m = none := by
  induction m with
  | nil => rfl
  | cons p t ih =>
    simp only [List.map_cons, List.mem_cons] at h
    push_neg at h
    simp only [lookupA, if_neg h.1]
    exact ih h.2

/-! ## Normalization toolkit (`normalize.go`) -/

/-- The replacement table of `atoneReplacer` (normalize.go): each
macron/breve-marked vowel replaced by its bare counterpart. -/
def atonePairs : List (Char × Char) :=
  [('ā', 'a'), ('ă', 'a'), ('ē', 'e'), ('ĕ', 'e'),
   ('ī', 'i'), ('ĭ', 'i'), ('ō', 'o'), ('ŏ', 'o'),
   ('ū', 'u'), ('ŭ', 'u'), ('ȳ', 'y'), ('ў', 'y'),
   ('Ā', 'A'), ('Ă', 'A'), ('Ē', 'E'), ('Ĕ', 'E'),
   ('Ī', 'I'), ('Ĭ', 'I'), ('Ō', 'O'), ('Ŏ', 'O'),
   ('Ū', 'U'), ('Ŭ', 'U'), ('Ȳ', 'Y'), ('Ў', 'Y')]

/-- Character-wise action of `atoneReplacer` (all patterns are single runes,
so the replacer is a character map). -/
def atoneChar (c : Char) : Char := (lookupA c atonePairs).getD c

/-- The combining breve U+0306, removed by `Atone`. -/
def breveChar : Char := '̆'

/-- `Atone` (normalize.go): strip vowel-quantity diacritics, then remove the
combining breve U+0306. -/
def atone (s : List Char) : List Char :=
  (s.map atoneChar).filter (fun c => c != breveChar)

/-- The replacement table of `deramiseReplacer` (normalize.go). -/
def deramPairs : List (Char × List Char) :=
  [('J', ['I']), ('j', ['i']), ('v', ['u']), ('V', ['U']),
   ('æ', ['a', 'e']), ('Æ', ['A', 'e']),
   ('œ', ['o', 'e']), ('Œ', ['O', 'e']),
   ('ụ', ['u'])]

/-- Character-wise action of `deramiseReplacer` (all patterns are single
runes, so the replacer maps each rune independently). -/
def deramChar (c : Char) : List Char := (lookupA c deramPairs).getD [c]

/-- `Deramise` (normalize.go). -/
def deramise (s : List Char) : List Char := s.flatMap deramChar

/-- `NormalizeKey` (normalize.go): `Atone(Deramise(s))`. -/
def normalizeKey (s : List Char) : List Char := atone (deramise s)

theorem atone_append (a b : List Char) : atone (a ++ b) = atone a ++ atone b := by
  simp [atone, List.filter_append]

theorem deramise_append (a b : List Char) :
    deramise (a ++ b) = deramise a ++ deramise b := by
  simp [deramise]

theorem atone_singleton (c : Char) :
    atone [c] = if atoneChar c != breveChar then [atoneChar c] else [] := by
  by_cases h : atoneChar c != breveChar <;> simp [atone, h]

/-- Character-level commutation: pushing one deramised character through
`atone` equals first atoning the character and then deramising it.  The
character classes touched by the two replacers are disjoint and neither
produces characters the other consumes. -/
theorem charComm (c : Char) :
    atone (deramChar c) =
      if atoneChar c != breveChar then deramChar (atoneChar c) else [] := by
  by_cases ha : c ∈ atonePairs.map Prod.fst
  · revert ha
    have : ∀ c ∈ atonePairs.map Prod.fst,
        atone (deramChar c) =
          if atoneChar c != breveChar then deramChar (atoneChar c) else [] := by
      decide
    exact this c
  · by_cases hd : c ∈ deramPairs.map Prod.fst
    · revert hd
      have : ∀ c ∈ deramPairs.map Prod.fst,
          atone (deramChar c) =
            if atoneChar c != breveChar then deramChar (atoneChar c) else [] := by
        decide
      exact this c
    · have hac : atoneChar c = c := by
        simp [atoneChar, lookupA_eq_none c atonePairs ha]
      have hdc : deramChar c = [c] := by
        simp [deramChar, lookupA_eq_none c deramPairs hd]
      by_cases hb : c = breveChar
      · subst hb
        simp [hdc, hac, atone_singleton]
      · have hbb : (c != breveChar) = true := by
          simp [bne_iff_ne]; exact hb
        rw [hdc, atone_singleton, hac, hbb]
        simp [hdc]

/-- C7: `atone` and `deramise` commute: for every string `s`,
`Atone(Deramise(s)) = Deramise(Atone(s))`, so the key normalization
`NormalizeKey = Atone ∘ Deramise` is independent of the order in which the
two functions are composed. -/
theorem C7_atone_deramise_commute (s : List Char) :
    atone (deramise s) = deramise (atone s) ∧
      normalizeKey s = atone (deramise s) := by
  refine ⟨?_, rfl⟩
  induction s with
  | nil => rfl
  | cons c t ih =>
    have h1 : deramise (c :: t) = deramChar c ++ deramise t := by
      simp [deramise]
    have h2 : atone (c :: t) = atone [c] ++ atone t := by
      simpa using atone_append [c] t
    rw [h1, atone_append, h2, deramise_append, ih, atone_singleton]
    by_cases hb : atoneChar c != breveChar
    · rw [charComm c, if_pos hb, if_pos hb]
      simp [deramise]
    · rw [charComm c, if_neg hb, if_neg hb]
      simp [deramise]

/-! ## Case mapping (models Go's `unicode`/`strings` case functions on the
Latin repertoire used by the analyzer; identity elsewhere). -/

/-- Non-ASCII, non-Latin-1 uppercase/lowercase pairs used by the data
(macron and breve letters of `ch.cpp`, Œ, Cyrillic Ў). -/
def casePairsX : List (Char × Char) :=
  [('Ā', 'ā'), ('Ă', 'ă'), ('Ē', 'ē'), ('Ĕ', 'ĕ'), ('Ī', 'ī'), ('Ĭ', 'ĭ'),
   ('Ō', 'ō'), ('Ŏ', 'ŏ'), ('Ū', 'ū'), ('Ŭ', 'ŭ'), ('Ȳ', 'ȳ'), ('Ў', 'ў'),
   ('Œ', 'œ')]

/-- Models `unicode.ToLower` (hence character-wise `strings.ToLower`). -/
def goToLowerChar (c : Char) : Char :=
  if ('A' ≤ c ∧ c ≤ 'Z') ∨ ('À' ≤ c ∧ c ≤ 'Þ' ∧ c ≠ '×') then
    Char.ofNat (c.toNat + 32)
  else (lookupA c casePairsX).getD c

/-- Models `unicode.ToUpper` on the same repertoire. -/
def goToUpperChar (c : Char) : Char :=
  if ('a' ≤ c ∧ c ≤ 'z') ∨ ('à' ≤ c ∧ c ≤ 'þ' ∧ c ≠ '÷' ∧ c ≠ 'ß') then
    Char.ofNat (c.toNat - 32)
  else (lookupA c (casePairsX.map fun p => (p.2, p.1))).getD c

/-- Models `unicode.IsUpper` on the same repertoire. -/
def goIsUpper (c : Char) : Bool :=
  if ('A' ≤ c ∧ c ≤ 'Z') ∨ ('À' ≤ c ∧ c ≤ 'Þ' ∧ c ≠ '×') ∨
      c ∈ casePairsX.map Prod.fst then true else false

/-- Models `unicode.IsLower` on the same repertoire. -/
def goIsLower (c : Char) : Bool :=
  if ('a' ≤ c ∧ c ≤ 'z') ∨ ('à' ≤ c ∧ c ≤ 'þ' ∧ c ≠ '÷') ∨
      c ∈ casePairsX.map Prod.snd then true else false

/-- `strings.ToLower`, character-wise (no Unicode special casing arises on
the Latin repertoire). -/
def goToLower (s : List Char) : List Char := s.map goToLowerChar

/-! ## Data model (`model.go`, `lemma.go`, `collatinus.go`)

The structures keep exactly the fields the embedded operations read; Go
fields that only feed display output (`Key`, `IndMorph`, translations,
occurrence counts, …) are omitted.  Pointer identity of `*Model` is
modelled by a numeric `id`; `Desinence.Model`, being used only for pointer
comparison against `lemma.model` and for rebinding in clones, is stored as
that id. -/

/-- `Analysis` (part_000). -/
structure Analysis where
  formWithMarks : List Char
  morphoDescription : List Char
  morphoIndex : Int
deriving DecidableEq, Repr

/-- `Desinence` (model.go). -/
structure Desinence where
  grq : List Char
  gr : List Char
  morphoNum : Int
  radNum : Int
  modelId : Nat
deriving DecidableEq, Repr

/-- `Model` (model.go).  `parent` is the inherited-from model (a pointer in
Go, here the value it points to); `id` models the pointer identity of the
model itself. -/
inductive Model where
  | mk (id : Nat) (name : String) (parent : Option Model)
       (radicalRules : List (Int × String)) (absents : List Int)
       (desinences : List (Int × List Desinence)) (pos : Char)

def Model.id : Model → Nat
  | .mk i _ _ _ _ _ _ => i

def Model.name : Model → String
  | .mk _ n _ _ _ _ _ => n

def Model.parent : Model → Option Model
  | .mk _ _ p _ _ _ _ => p

def Model.radicalRules : Model → List (Int × String)
  | .mk _ _ _ r _ _ _ => r

def Model.absents : Model → List Int
  | .mk _ _ _ _ a _ _ => a

def Model.desinences : Model → List (Int × List Desinence)
  | .mk _ _ _ _ _ d _ => d

def Model.pos : Model → Char
  | .mk _ _ _ _ _ _ p => p

/-- `Model.hasDesinence`: the morpho index is a key of the slot map. -/
def Model.hasDesinence (m : Model) (mn : Int) : Bool :=
  (lookupA mn m.desinences).isSome

/-- `Model.isAbsent`. -/
def Model.isAbsent (m : Model) (a : Int) : Bool := m.absents.contains a

/-- `Model.DesinencesAt`. -/
def Model.desinencesAt (m : Model) (mn : Int) : List Desinence :=
  (lookupA mn m.desinences).getD []

/-- `Model.AllDesinences` (map-value iteration, in list order). -/
def Model.allDesinences (m : Model) : List Desinence :=
  m.desinences.flatMap Prod.snd

/-- `Irreg` (lemma.go), without the back pointer to its lemma (the global
irregular index pairs each entry with its owning lemma instead). -/
structure Irreg where
  grq : List Char
  gr : List Char
  exclusive : Bool
  morphos : List Int
deriving DecidableEq, Repr

/-- One stem as stored on a lemma (`Radical` without the redundant `Num`
key and the cyclic back pointer). -/
structure RadItem where
  grq : List Char
  gr : List Char
deriving DecidableEq, Repr

/-- `Lemma` (lemma.go), restricted to the fields the lemmatizer and the
inflection-table generator read. -/
structure Lemma where
  id : Nat
  model : Option Model
  irregs : List Irreg
  radicals : List (Int × List RadItem)
  morphosIrregExcl : List Int

/-- `Lemme::isExclusiveIrreg` (lemma.go). -/
def Lemma.isExclusiveIrreg (l : Lemma) (nm : Int) : Bool :=
  l.morphosIrregExcl.contains nm

/-- `Lemme::irregAt` (lemma.go): the first irregular covering slot `i`,
with its exclusive flag; `("", false)` when none. -/
def Lemma.irregAt (l : Lemma) (i : Int) : List Char × Bool :=
  go l.irregs
where go : List Irreg → List Char × Bool
  | [] => ([], false)
  | ir :: t => if ir.morphos.contains i then (ir.grq, ir.exclusive) else go t

/-- `Lemma.RadicalsAt` (lemma.go). -/
def Lemma.radicalsAt (l : Lemma) (r : Int) : List RadItem :=
  (lookupA r l.radicals).getD []

/-- `Lemma.addIrreg` (lemma.go): attach an irregular; exclusive ones extend
the exclusive-slot mask. -/
def Lemma.addIrreg (l : Lemma) (irr : Irreg) : Lemma :=
  { l with irregs := l.irregs ++ [irr],
           morphosIrregExcl :=
             if irr.exclusive then l.morphosIrregExcl ++ irr.morphos
             else l.morphosIrregExcl }

/-- `Radical` as stored in the global radical index (lemmatize.go uses its
`Grq`, `Num` and owning lemma). -/
structure Radical where
  grq : List Char
  gr : List Char
  num : Int
  lemmaRef : Lemma

/-- `Lemmatizer` (collatinus.go): the loaded, immutable state. -/
structure Lemmat where
  morphos : List (List Char)
  lemmas : List (List Char × Lemma)
  desinences : List (List Char × List Desinence)
  radicals : List (List Char × List Radical)
  irregs : List (List Char × List (Irreg × Lemma))
  assims : List (List Char × List Char)
  contractions : List (List Char × List Char)

/-- `Lemmat::Morpho` (collatinus.go): description at 1-based slot `m`,
empty for out-of-range. -/
def Lemmat.morpho (l : Lemmat) (m : Int) : List Char :=
  if m < 1 ∨ (l.morphos.length : Int) ≤ m then [] else l.morphos.getD m.toNat []

/-- `Lemmat::Lemma` (collatinus.go): look a lemma up by normalized key. -/
def Lemmat.lemmaByForm (l : Lemmat) (key : List Char) : Option Lemma :=
  lookupA (normalizeKey key) l.lemmas

/-! ## Raw matcher (`lemmatizeRaw`, lemmatize.go) -/

/-- Scanner for `countOcc`: when `skip > 0` we are inside the previously
matched (non-overlapping) occurrence and only consume characters. -/
def countOccAux (pat : List Char) : Nat → List Char → Nat
  | _, [] => 0
  | k + 1, _ :: rest => countOccAux pat k rest
  | 0, c :: rest =>
    if pat ≠ [] ∧ pat.isPrefixOf (c :: rest) then
      1 + countOccAux pat (pat.length - 1) rest
    else countOccAux pat 0 rest

/-- `strings.Count` for a non-empty pattern: non-overlapping occurrences,
scanning left to right. -/
def countOcc (pat : List Char) (s : List Char) : Nat := countOccAux pat 0 s

/-- The three counters of `lemmatizeRaw` (lemmatize.go lines 56-63):
`v`, `æ` (minus one for a trailing `æ`) and `œ` counts over the lowercased
original form.  Returned as `(cntV, cntAe, cntOe)`. -/
def countsOf (form : List Char) : Nat × Nat × Nat :=
  let lower := goToLower form
  let cntV := countOcc ['v'] lower
  let cntAe0 := countOcc ['æ'] lower
  let cntOe := countOcc ['œ'] lower
  let cntAe := if ['æ'].isSuffixOf lower then cntAe0 - 1 else cntAe0
  (cntV, cntAe, cntOe)

/-- The ii/ī-recursion condition of the split loop (lemmatize.go lines
98-105), verbatim from the code. -/
def needDoubleI (r d : List Char) : Bool :=
  let rEndsI := r.getLast? == some 'i'
  let rEndsII := ['i', 'i'].isSuffixOf r
  let dStartsI := d.head? == some 'i'
  let dStartsII := ['i', 'i'].isPrefixOf d
  (d.isEmpty && rEndsI) || (dStartsI && !dStartsII && !rEndsI) ||
    (rEndsI && !rEndsII && !dStartsI)

/-- The body of the inner radical×desinence loop (lemmatize.go lines
128-160) for one candidate pair: the four `continue` guards (model
identity, radical number, exclusive-irregular mask, morpho range) followed
by the vowel-count consistency check; `some` is the emitted analysis. -/
def tryCandidate (l : Lemmat) (cntV cntAe cntOe : Nat) (rad : Radical)
    (de : Desinence) : Option (Lemma × Analysis) :=
  if rad.lemmaRef.model.map Model.id ≠ some de.modelId then none
  else if de.radNum ≠ rad.num then none
  else if rad.lemmaRef.isExclusiveIrreg de.morphoNum then none
  else if de.morphoNum < 1 ∨ (l.morphos.length : Int) ≤ de.morphoNum then none
  else if (cntV == 0 ||
        cntV == countOcc ['v'] (goToLower rad.grq) +
          countOcc ['v'] (goToLower de.grq))
      && (cntOe == 0 || cntOe == countOcc (tl "ōe") (goToLower rad.grq))
      && (cntAe == 0 ||
        cntAe == countOcc (tl "āe") (goToLower rad.grq) +
          countOcc (tl "prăe") (goToLower rad.grq)) then
    some (rad.lemmaRef, ⟨rad.grq ++ de.grq, l.morpho de.morphoNum, de.morphoNum⟩)
  else none

/-- The full inner double loop over radicals and desinences of one split. -/
def splitMatches (l : Lemmat) (cntV cntAe cntOe : Nat) (rads : List Radical)
    (des : List Desinence) : List (Lemma × Analysis) :=
  rads.flatMap fun rad => des.filterMap fun de =>
    tryCandidate l cntV cntAe cntOe rad de

/-- The irregular probe (lemmatize.go lines 69-80). -/
def irregProbe (l : Lemmat) (form : List Char) : List (Lemma × Analysis) :=
  match lookupA form l.irregs with
  | none => []
  | some irrs => irrs.flatMap fun p =>
      p.1.morphos.map fun mn => (p.2, ⟨p.1.grq, l.morpho mn, mn⟩)

/-- The edit applied to analyses coming back from the ii/ī recursion
(lemmatize.go lines 111-117): delete the code point at `rLen - 1`. -/
def editGrq (rLen : Nat) (an : Analysis) : Analysis :=
  let grq := an.formWithMarks
  if 0 < rLen ∧ rLen - 1 < grq.length then
    { an with formWithMarks := grq.take (rLen - 1) ++ grq.drop rLen }
  else an

/-- One iteration of the split loop (lemmatize.go lines 84-162) at stem `r`
and ending `d`: radical-index guard, ii/ī recursion (through `rawRec`,
which is the fuel-limited recursive call), desinence-index guard, inner
double loop. -/
def splitStep (l : Lemmat) (cntV cntAe cntOe : Nat)
    (rawRec : List Char → Option (List (Lemma × Analysis)))
    (r d : List Char) : Option (List (Lemma × Analysis)) :=
  match lookupA r l.radicals with
  | none => some []
  | some rads => do
    let recPart ←
      if needDoubleI r d then do
        let nm ← rawRec (r ++ 'i' :: d)
        pure (nm.map fun q => (q.1, editGrq r.length q.2))
      else pure []
    let regPart :=
      match lookupA d l.desinences with
      | none => []
      | some des => splitMatches l cntV cntAe cntOe rads des
    pure (recPart ++ regPart)

/-- The split loop over a list of split positions. -/
def rawLoop (l : Lemmat) (cntV cntAe cntOe : Nat)
    (rawRec : List Char → Option (List (Lemma × Analysis)))
    (f : List Char) : List Nat → Option (List (Lemma × Analysis))
  | [] => some []
  | i :: is => do
    let x ← splitStep l cntV cntAe cntOe rawRec (f.take i) (f.drop i)
    let xs ← rawLoop l cntV cntAe cntOe rawRec f is
    pure (x ++ xs)

/-- `lemmatizeRaw` (lemmatize.go), fuel-indexed: counts from the original
form, deramise, irregular probe, split loop over `i ∈ [0, len]`.  `none`
means the fuel ran out in the ii/ī recursion. -/
def rawFuel (l : Lemmat) : Nat → List Char → Option (List (Lemma × Analysis))
  | 0, _ => none
  | n + 1, form =>
    match rawLoop l (countsOf form).1 (countsOf form).2.1 (countsOf form).2.2
        (rawFuel l n) (deramise form)
        (List.range ((deramise form).length + 1)) with
    | none => none
    | some xs => some (irregProbe l (deramise form) ++ xs)

/-! ## Inflection-table generator (part_003) -/

/-- `unique` (part_003): first-seen-order deduplication. -/
def uniqueL : List (List Char) → List (List Char) := go []
where go (seen : List (List Char)) : List (List Char) → List (List Char)
  | [] => []
  | s :: t => if seen.contains s then go seen t else s :: go (seen ++ [s]) t

/-- `inflectedForms` (part_003): the list of inflected forms of a lemma at
one morpho index: exclusive irregular short-circuit, optional non-exclusive
irregular first, then radical+desinence cross products, deduplicated. -/
def inflectedForms (l : Lemmat) (lem : Lemma) (morphoIdx : Int) :
    List (List Char) :=
  match lem.model with
  | none => []
  | some m =>
    match lem.irregAt morphoIdx with
    | (irrGrq, true) => if irrGrq ≠ [] then [irrGrq] else []
    | (irrGrq, false) =>
      let base := if irrGrq ≠ [] then [irrGrq] else []
      let regular := (m.desinencesAt morphoIdx).flatMap fun d =>
        (lem.radicalsAt d.radNum).map fun rad => rad.grq ++ d.grq
      uniqueL (base ++ regular)

/-- `inflectionTable` (part_003): cells for every morpho index of the
model's slot map that yields a non-empty form list. -/
def inflectionTable (l : Lemmat) (lem : Lemma) :
    Option (List (Int × List (List Char))) :=
  match lem.model with
  | none => none
  | some m =>
    some ((m.desinences.map Prod.fst).filterMap fun mn =>
      let fs := inflectedForms l lem mn
      if fs ≠ [] then some (mn, fs) else none)

/-! ## Claims C2, C3, C4 -/

theorem tryCandidate_some_mask {l : Lemmat} {cV cAe cOe : Nat}
    {rad : Radical} {de : Desinence} {lem : Lemma} {an : Analysis}
    (h : tryCandidate l cV cAe cOe rad de = some (lem, an)) :
    lem.isExclusiveIrreg an.morphoIndex = false := by
  unfold tryCandidate at h
  split_ifs at h with g1 g2 g3 g4 g5 <;>
    first
      | exact Option.noConfusion h
      | (injection h with h2; injection h2 with hl ha; subst hl; subst ha;
         simpa using g3)

/-- The two-irregular lemma refuting C2's inflection-table half: a
non-exclusive irregular `ax` at slot 5 registered before an exclusive
irregular `ex` at slot 5. -/
def cexC2Des : Desinence := ⟨tl "us", tl "us", 5, 1, 7⟩

def cexC2Model : Model := .mk 7 "lupus" none [] [] [(5, [cexC2Des])] 'n'

def cexC2Lemma : Lemma :=
  (Lemma.addIrreg
    (Lemma.addIrreg
      ⟨0, some cexC2Model, [], [(1, [⟨tl "lup", tl "lup"⟩])], []⟩
      ⟨tl "AX", tl "AX", false, [5]⟩)
    ⟨tl "EX", tl "EX", true, [5]⟩)

def cexC2Lemmat : Lemmat := ⟨[[]], [], [], [], [], [], []⟩

/-- C2, counterexample: `cexC2Lemma` has an exclusive irregular covering
slot 5 (its exclusive mask holds 5), yet the inflection-table entry at
slot 5 is not the one-element list of that irregular's form `EX`: the
earlier non-exclusive irregular wins `irregAt`, so the cell lists `AX`
followed by the regular form. -/
theorem C2_counterexample :
    cexC2Lemma.isExclusiveIrreg 5 = true ∧
      inflectedForms cexC2Lemmat cexC2Lemma 5 = [tl "AX", tl "lupus"] ∧
      inflectedForms cexC2Lemmat cexC2Lemma 5 ≠ [tl "EX"] := by
  refine ⟨by decide, by decide, by decide⟩

/-- C2 (amended): exclusive irregulars preempt regulars in the raw
matcher — no analysis emitted by the regular radical×desinence loop sits
at a slot of its lemma's exclusive-irregular mask — and the inflection
table's entry at slot `s` is exactly the one-element list of the
irregular's diacritic-marked form provided the lemma's model is resolved
and the *first* irregular of the lemma covering `s` is exclusive with a
non-empty form (an earlier irregular covering the same slot, as in the
counterexample, takes precedence in `irregAt`). -/
theorem C2_exclusive_preempt :
    (∀ (l : Lemmat) (cV cAe cOe : Nat) (rads : List Radical)
        (des : List Desinence) (lem : Lemma) (an : Analysis),
        (lem, an) ∈ splitMatches l cV cAe cOe rads des →
        lem.isExclusiveIrreg an.morphoIndex = false) ∧
    (∀ (l : Lemmat) (lem : Lemma) (s : Int) (g : List Char),
        lem.model.isSome → lem.irregAt s = (g, true) → g ≠ [] →
        inflectedForms l lem s = [g]) := by
  constructor
  · intro l cV cAe cOe rads des lem an hmem
    simp only [splitMatches, List.mem_flatMap, List.mem_filterMap] at hmem
    obtain ⟨rad, _, de, _, h⟩ := hmem
    exact tryCandidate_some_mask h
  · intro l lem s g hm hirr hg
    obtain ⟨m, hm'⟩ := Option.isSome_iff_exists.mp hm
    simp [inflectedForms, hm', hirr, hg]

def cexC2GoodLemma : Lemma :=
  Lemma.addIrreg ⟨1, some cexC2Model, [], [(1, [⟨tl "lup", tl "lup"⟩])], []⟩
    ⟨tl "EX", tl "EX", true, [5]⟩

def witC2Lemmat : Lemmat := ⟨[[], tl "nominatif singulier"], [], [], [], [], [], []⟩

def witC2Rad : Radical := ⟨tl "lup", tl "lup", 1, cexC2GoodLemma⟩

def witC2Des : Desinence := ⟨tl "us", tl "us", 1, 1, 7⟩

def witC2An : Analysis := ⟨tl "lupus", tl "nominatif singulier", 1⟩

/-- Witness for C2: both halves applied at concrete inputs.  The first
half at a singleton regular match (the lemma's exclusive mask covers only
slot 5, and the match is at slot 1); the second at a lemma whose only
irregular at slot 5 is exclusive. -/
theorem C2_witness :
    cexC2GoodLemma.isExclusiveIrreg witC2An.morphoIndex = false ∧
    inflectedForms cexC2Lemmat cexC2GoodLemma 5 = [tl "EX"] := by
  constructor
  · refine C2_exclusive_preempt.1 witC2Lemmat 0 0 0 [witC2Rad] [witC2Des]
      cexC2GoodLemma witC2An ?_
    have h : splitMatches witC2Lemmat 0 0 0 [witC2Rad] [witC2Des] =
        [(cexC2GoodLemma, witC2An)] := rfl
    rw [h]
    exact List.mem_singleton.mpr rfl
  · exact C2_exclusive_preempt.2 cexC2Lemmat cexC2GoodLemma 5 (tl "EX")
      (by decide) (by decide) (by decide)

/-- C3: the raw matcher accepts a (radical, ending) candidate that has
passed the model/radical-number/mask/slot guards if and only if the
vowel-quantity check holds, with `cV`/`cAe`/`cOe` the counters computed
from the lowercased original form (`æ` count lowered by one for a trailing
`æ`), `vR`/`vD` the `v` counts of the lowercased marked stem and ending,
`oeR` the `ōe` count of the stem, and `aeR`/`praeR` the `āe` and `prăe`
counts of the stem. -/
theorem C3_vowel_quantity_check (l : Lemmat) (form : List Char)
    (rad : Radical) (de : Desinence) (cV cAe cOe : Nat)
    (hc : countsOf form = (cV, cAe, cOe))
    (h1 : rad.lemmaRef.model.map Model.id = some de.modelId)
    (h2 : de.radNum = rad.num)
    (h3 : rad.lemmaRef.isExclusiveIrreg de.morphoNum = false)
    (h4 : 1 ≤ de.morphoNum) (h5 : de.morphoNum < (l.morphos.length : Int)) :
    (tryCandidate l cV cAe cOe rad de).isSome ↔
      ((cV = 0 ∨ cV = countOcc ['v'] (goToLower rad.grq) +
          countOcc ['v'] (goToLower de.grq)) ∧
       (cOe = 0 ∨ cOe = countOcc (tl "ōe") (goToLower rad.grq)) ∧
       (cAe = 0 ∨ cAe = countOcc (tl "āe") (goToLower rad.grq) +
          countOcc (tl "prăe") (goToLower rad.grq))) := by
  clear hc
  unfold tryCandidate
  rw [if_neg (by simp [h1]), if_neg (by simp [h2]), if_neg (by simp [h3]),
    if_neg (by omega)]
  by_cases hq : ((cV == 0 ||
        cV == countOcc ['v'] (goToLower rad.grq) +
          countOcc ['v'] (goToLower de.grq))
      && (cOe == 0 || cOe == countOcc (tl "ōe") (goToLower rad.grq))
      && (cAe == 0 ||
        cAe == countOcc (tl "āe") (goToLower rad.grq) +
          countOcc (tl "prăe") (goToLower rad.grq))) = true
  · rw [if_pos hq]
    simp only [Bool.and_eq_true, Bool.or_eq_true, beq_iff_eq] at hq
    simpa using ⟨hq.1.1, hq.1.2, hq.2⟩
  · rw [if_neg hq]
    simp only [Bool.and_eq_true, Bool.or_eq_true, beq_iff_eq] at hq
    simp only [Option.isSome_none, Bool.false_eq_true, false_iff]
    intro hcontra
    exact hq ⟨⟨by tauto, by tauto⟩, by tauto⟩

def witC3Rad : Radical := ⟨tl "lup", tl "lup", 1, cexC2GoodLemma⟩

/-- Witness for C3 at a concrete candidate that passes every guard: with
all three counters zero the check holds and the candidate is accepted. -/
theorem C3_witness :
    (tryCandidate witC2Lemmat 0 0 0 witC3Rad witC2Des).isSome ↔
      ((0 = 0 ∨ 0 = countOcc ['v'] (goToLower witC3Rad.grq) +
          countOcc ['v'] (goToLower witC2Des.grq)) ∧
       (0 = 0 ∨ 0 = countOcc (tl "ōe") (goToLower witC3Rad.grq)) ∧
       (0 = 0 ∨ 0 = countOcc (tl "āe") (goToLower witC3Rad.grq) +
          countOcc (tl "prăe") (goToLower witC3Rad.grq))) :=
  C3_vowel_quantity_check witC2Lemmat [] witC3Rad witC2Des 0 0 0
    (by decide) (by decide) (by decide) (by decide) (by decide) (by decide)

/-! ### C4: the ii/ī-recursion trigger -/

/-- Claim-side condition (a): the ending is empty and the stem ends in
`i`. -/
def specCondA (r d : List Char) : Bool :=
  d.isEmpty && (r.getLast? == some 'i')

/-- Claim-side condition (b): the ending starts with `i` but not `ii`, and
the stem does not end in `i`. -/
def specCondB (r d : List Char) : Bool :=
  (d.head? == some 'i') && !(['i', 'i'].isPrefixOf d) &&
    !(r.getLast? == some 'i')

/-- Claim-side condition (c): the stem ends in `i` but not `ii`, and the
ending does not start with `i`. -/
def specCondC (r d : List Char) : Bool :=
  (r.getLast? == some 'i') && !(['i', 'i'].isSuffixOf r) &&
    !(d.head? == some 'i')

/-- Claim-side "exactly one of (a), (b), (c) holds". -/
def specExactlyOne (r d : List Char) : Bool :=
  (specCondA r d).toNat + (specCondB r d).toNat + (specCondC r d).toNat == 1

/-- Whether the split loop triggers the ii/ī recursion at split `(r, d)`:
the loop `continue`s unless the stem is a radical-index key (lemmatize.go
line 88), and then recurses exactly when `needDoubleI` holds (line 107). -/
def iiTriggered (l : Lemmat) (r d : List Char) : Bool :=
  (lookupA r l.radicals).isSome && needDoubleI r d

def cexC4Lemma : Lemma := ⟨0, none, [], [], []⟩

def cexC4Rad : Radical := ⟨['i'], ['i'], 1, cexC4Lemma⟩

def cexC4Lemmat : Lemmat := ⟨[[]], [], [], [(['i'], [cexC4Rad])], [], [], []⟩

/-- C4, counterexample: at the split `stem = "i"`, `ending = ""` of the
form `"i"` (with `"i"` a radical-index key) the recursion *is* triggered,
yet conditions (a) and (c) hold simultaneously, so "exactly one of
(a),(b),(c)" is false; moreover the claim omits the radical-index guard.
This refutes the claimed "triggered iff exactly one holds". -/
theorem C4_counterexample :
    iiTriggered cexC4Lemmat ['i'] [] = true ∧
      specExactlyOne ['i'] [] = false ∧
      specCondA ['i'] [] = true ∧ specCondC ['i'] [] = true := by
  refine ⟨by decide, by decide, by decide, by decide⟩

/-- C4 (amended): in the raw matcher's split loop the ii/ī recursion is
triggered iff the stem is a key of the radical index and *at least one* of
the claim's conditions (a), (b), (c) holds ((a) and (c) overlap when the
ending is empty and the stem ends in a single `i`); and when the trigger
is off, the split contributes the same result whatever the recursive
lemmatizer does. -/
theorem C4_ii_recursion_trigger :
    (∀ (l : Lemmat) (r d : List Char),
        iiTriggered l r d =
          ((lookupA r l.radicals).isSome &&
            (specCondA r d || specCondB r d || specCondC r d))) ∧
    (∀ (l : Lemmat) (cV cAe cOe : Nat)
        (rec₁ rec₂ : List Char → Option (List (Lemma × Analysis)))
        (r d : List Char), iiTriggered l r d = false →
        splitStep l cV cAe cOe rec₁ r d = splitStep l cV cAe cOe rec₂ r d) := by
  constructor
  · intro l r d
    rfl
  · intro l cV cAe cOe rec₁ rec₂ r d htrig
    unfold iiTriggered at htrig
    unfold splitStep
    cases hlook : lookupA r l.radicals with
    | none => rfl
    | some rads =>
      rw [hlook] at htrig
      simp only [Option.isSome_some, Bool.true_and] at htrig
      simp [htrig]

/-- Witness for C4's hypothesis-bearing half: with an empty radical index
no split triggers the recursion, and the split result is independent of
the recursive call. -/
theorem C4_witness :
    splitStep cexC2Lemmat 0 0 0 (fun _ => none) ['a'] ['b'] =
      splitStep cexC2Lemmat 0 0 0 (fun _ => some []) ['a'] ['b'] :=
  C4_ii_recursion_trigger.2 cexC2Lemmat 0 0 0 (fun _ => none)
    (fun _ => some []) ['a'] ['b'] (by decide)

/-! ## Termination of the ii/ī recursion

`lemmatizeRaw` recurses on a *longer* form (`stem ++ "i" ++ ending`), so no
structural measure applies.  But the recursion is guarded: the stem must be
a key of the radical index, so the insertion point is bounded by the length
`Kof l` of the longest radical key; and `needDoubleI` fires either next to
an isolated single `i` — which the insertion turns into `ii`, destroying
one isolated `i` inside the window `[0, Kof l + 2)` while creating none and
shifting the others only rightwards — or, with an empty ending, at the end
of a form that is itself a radical key and hence shorter than the window.
The measure `mu` below (isolated-`i` count in the window, then remaining
room for the form inside the window, lexicographically) therefore strictly
decreases along every recursive call. -/

/-- Length of the longest key of an association list. -/
def maxKeyLen {β : Type} (m : List (List Char × β)) : Nat :=
  (m.map fun p => p.1.length).foldr max 0

theorem length_le_maxKeyLen {β : Type} {k : List Char}
    {m : List (List Char × β)} {v : β} (h : lookupA k m = some v) :
    k.length ≤ maxKeyLen m := by
  induction m with
  | nil => simp [lookupA] at h
  | cons p t ih =>
    simp only [lookupA] at h
    by_cases hk : k = p.1
    · subst hk
      exact le_max_left _ _ |>.trans (le_of_eq rfl)
    · rw [if_neg hk] at h
      exact (ih h).trans (le_max_right _ _)

/-- Bound on the insertion point: the radical-index key length. -/
def Kof (l : Lemmat) : Nat := maxKeyLen l.radicals

/-- Position `p` of `f` holds an isolated single `i` (an `i` with no `i`
immediately before or after). -/
def isolatedB (f : List Char) (p : Nat) : Bool :=
  (f[p]? == some 'i') && !(f[p + 1]? == some 'i') &&
    (p == 0 || !(f[p - 1]? == some 'i'))

theorem isolatedB_iff {f : List Char} {p : Nat} :
    isolatedB f p = true ↔
      (f[p]? = some 'i' ∧ f[p + 1]? ≠ some 'i' ∧
        (p = 0 ∨ f[p - 1]? ≠ some 'i')) := by
  simp [isolatedB, and_assoc]

/-- Number of isolated `i`s inside the window `[0, Kof l + 2)`. -/
def Phi (l : Lemmat) (f : List Char) : Nat :=
  ((Finset.range (Kof l + 2)).filter fun p => isolatedB f p = true).card

/-- The termination measure of the ii/ī recursion (on deramised forms). -/
def mu (l : Lemmat) (f : List Char) : Nat :=
  Phi l f * (Kof l + 2) + (Kof l + 1 - min f.length (Kof l + 1))

/-- The termination measure on raw input forms. -/
def nu (l : Lemmat) (form : List Char) : Nat := mu l (deramise form)

theorem ins_get_lt {r d : List Char} {q : Nat} (h : q < r.length) :
    (r ++ 'i' :: d)[q]? = (r ++ d)[q]? := by
  rw [List.getElem?_append_left h, List.getElem?_append_left h]

theorem ins_get_at (r d : List Char) : (r ++ 'i' :: d)[r.length]? = some 'i' := by
  rw [List.getElem?_append_right (Nat.le_refl _)]
  simp

theorem ins_get_gt {r d : List Char} {q : Nat} (h : r.length < q) :
    (r ++ 'i' :: d)[q]? = (r ++ d)[q - 1]? := by
  rw [List.getElem?_append_right (Nat.le_of_lt h),
      List.getElem?_append_right (by omega : r.length ≤ q - 1)]
  have h1 : q - r.length = (q - 1 - r.length) + 1 := by omega
  rw [h1]
  simp

theorem app_get_ge {r d : List Char} {q : Nat} (h : r.length ≤ q) :
    (r ++ d)[q]? = d[q - r.length]? :=
  List.getElem?_append_right h

/-- Below the insertion point, isolation transfers back unchanged. -/
theorem iso_low {r d : List Char} {p : Nat} (hp : p + 2 ≤ r.length)
    (h : isolatedB (r ++ 'i' :: d) p = true) : isolatedB (r ++ d) p = true := by
  rw [isolatedB_iff] at h ⊢
  obtain ⟨h1, h2, h3⟩ := h
  refine ⟨?_, ?_, ?_⟩
  · rw [← ins_get_lt (by omega)]; exact h1
  · rw [← ins_get_lt (by omega)]; exact h2
  · rcases h3 with h3 | h3
    · exact Or.inl h3
    · rcases Nat.eq_zero_or_pos p with hp0 | hp0
      · exact Or.inl hp0
      · exact Or.inr (by rw [← ins_get_lt (by omega)]; exact h3)

/-- Two past the insertion point, isolation transfers back shifted. -/
theorem iso_high {r d : List Char} {p : Nat} (hp : r.length + 2 ≤ p)
    (h : isolatedB (r ++ 'i' :: d) p = true) :
    isolatedB (r ++ d) (p - 1) = true := by
  rw [isolatedB_iff] at h ⊢
  obtain ⟨h1, h2, h3⟩ := h
  refine ⟨?_, ?_, ?_⟩
  · rw [← ins_get_gt (by omega)]; exact h1
  · have e : p - 1 + 1 = p := by omega
    have e2 : (r ++ 'i' :: d)[p + 1]? = (r ++ d)[p]? := by
      have h' := ins_get_gt (r := r) (d := d) (q := p + 1)
        (by omega : r.length < p + 1)
      simpa using h'
    rw [e, ← e2]
    exact h2
  · rcases h3 with h3 | h3
    · omega
    · refine Or.inr ?_
      have e : p - 1 - 1 = p - 1 - 1 := rfl
      rw [show p - 1 - 1 = (p - 1) - 1 from rfl, ← ins_get_gt (by omega : r.length < p - 1)]
      exact h3

theorem prefII_iff (d : List Char) :
    (['i', 'i'].isPrefixOf d = true) ↔ (d[0]? = some 'i' ∧ d[1]? = some 'i') := by
  match d with
  | [] => simp [List.isPrefixOf]
  | [a] => simp [List.isPrefixOf]
  | a :: b :: t =>
    simp only [List.isPrefixOf, Bool.and_eq_true, beq_iff_eq,
      List.getElem?_cons_zero, List.getElem?_cons_succ, Option.some.injEq]
    constructor
    · rintro ⟨h1, h2, -⟩
      exact ⟨h1.symm, h2.symm⟩
    · rintro ⟨h1, h2⟩
      exact ⟨h1.symm, h2.symm, by simp [List.isPrefixOf]⟩

theorem sufII_absent {r : List Char}
    (hns : (['i', 'i'].isSuffixOf r) = false)
    (hlast : r[r.length - 1]? = some 'i') (hlen : 2 ≤ r.length) :
    r[r.length - 2]? ≠ some 'i' := by
  intro hcon
  suffices htrue : (['i', 'i'].isSuffixOf r) = true by
    rw [hns] at htrue; exact Bool.noConfusion htrue
  rw [List.isSuffixOf_iff_suffix]
  refine ⟨r.take (r.length - 2), ?_⟩
  have hdrop : r.drop (r.length - 2) = ['i', 'i'] := by
    apply List.ext_getElem?
    intro n
    match n with
    | 0 => rw [List.getElem?_drop]; simpa using hcon
    | 1 =>
      rw [List.getElem?_drop]
      have e : r.length - 2 + 1 = r.length - 1 := by omega
      rw [e]; simpa using hlast
    | n + 2 =>
      rw [List.getElem?_drop]
      rw [List.getElem?_eq_none (by omega)]
      simp
  calc r.take (r.length - 2) ++ ['i', 'i']
      = r.take (r.length - 2) ++ r.drop (r.length - 2) := by rw [hdrop]
    _ = r := List.take_append_drop _ _

/-- Core cardinality step: if inserting at position `i` destroys the
isolated `i` at window position `p0` (`p0 ∈ {i-1, i}`), leaves no isolated
`i` at `i-1`, `i`, `i+1`, transfers isolated positions below `i` unchanged
and those above shifted by one, then the window count strictly drops. -/
theorem Phi_lt_of_shift (l : Lemmat) (f f' : List Char) (i p0 : Nat)
    (hWp0 : p0 < Kof l + 2)
    (hp0 : isolatedB f p0 = true)
    (hp0i : p0 = i ∨ p0 + 1 = i)
    (hz : ∀ p, isolatedB f' p = true → p + 2 ≤ i ∨ i + 2 ≤ p)
    (hlow : ∀ p, p + 2 ≤ i → isolatedB f' p = true → isolatedB f p = true)
    (hhigh : ∀ p, i + 2 ≤ p → isolatedB f' p = true →
      isolatedB f (p - 1) = true) :
    Phi l f' < Phi l f := by
  classical
  set W := Kof l + 2 with hW
  set A : Finset Nat := (Finset.range W).filter (fun p => isolatedB f p = true)
    with hA
  set A' : Finset Nat := (Finset.range W).filter
    (fun p => isolatedB f' p = true) with hA'
  have hp0A : p0 ∈ A := by
    rw [hA, Finset.mem_filter, Finset.mem_range]
    exact ⟨hWp0, hp0⟩
  have hmaps : ∀ p ∈ A', (if p < i then p else p - 1) ∈ A.erase p0 := by
    intro p hp
    rw [hA', Finset.mem_filter, Finset.mem_range] at hp
    obtain ⟨hpW, hiso⟩ := hp
    rcases hz p hiso with hlo | hhi
    · rw [if_pos (by omega)]
      rw [Finset.mem_erase, hA, Finset.mem_filter, Finset.mem_range]
      exact ⟨by omega, hpW, hlow p hlo hiso⟩
    · rw [if_neg (by omega)]
      rw [Finset.mem_erase, hA, Finset.mem_filter, Finset.mem_range]
      exact ⟨by omega, by omega, hhigh p hhi hiso⟩
  have hinj : Set.InjOn (fun p => if p < i then p else p - 1) ↑A' := by
    intro p hp q hq heq
    rw [Finset.mem_coe, hA', Finset.mem_filter] at hp hq
    rcases hz p hp.2 with hp' | hp' <;> rcases hz q hq.2 with hq' | hq' <;>
      simp only [if_pos, if_neg, not_lt] at heq <;>
      split_ifs at heq <;> omega
  have hcard : A'.card ≤ (A.erase p0).card :=
    Finset.card_le_card_of_injOn _ hmaps hinj
  have herase : (A.erase p0).card = A.card - 1 :=
    Finset.card_erase_of_mem hp0A
  have hpos : 0 < A.card := Finset.card_pos.mpr ⟨p0, hp0A⟩
  have : Phi l f' = A'.card := rfl
  have : Phi l f = A.card := rfl
  simp only [Phi, ← hW, ← hA, ← hA']
  omega

theorem mu_lt_of_Phi_lt {l : Lemmat} {f f' : List Char}
    (h : Phi l f' < Phi l f) : mu l f' < mu l f := by
  unfold mu
  have h1 : Kof l + 1 - min f'.length (Kof l + 1) ≤ Kof l + 1 := by omega
  have h2 : (Phi l f' + 1) * (Kof l + 2) ≤ Phi l f * (Kof l + 2) :=
    Nat.mul_le_mul_right _ h
  have h3 : (Phi l f' + 1) * (Kof l + 2) =
      Phi l f' * (Kof l + 2) + (Kof l + 2) := by ring
  omega

/-- The split at `(r, d)` can only recurse when the stem is a radical key
and `needDoubleI` holds; in that case the measure strictly decreases. -/
theorem mu_decrease (l : Lemmat) (r d : List Char) (rads : List Radical)
    (hrads : lookupA r l.radicals = some rads)
    (hneed : needDoubleI r d = true) :
    mu l (r ++ 'i' :: d) < mu l (r ++ d) := by
  have hK : r.length ≤ Kof l := length_le_maxKeyLen hrads
  have hcases : (d.isEmpty && (r.getLast? == some 'i')
      || ((d.head? == some 'i') && !(['i', 'i'].isPrefixOf d) &&
          !(r.getLast? == some 'i'))
      || ((r.getLast? == some 'i') && !(['i', 'i'].isSuffixOf r) &&
          !(d.head? == some 'i'))) = true := hneed
  simp only [Bool.or_eq_true, Bool.and_eq_true, beq_iff_eq,
    Bool.not_eq_true', List.isEmpty_iff] at hcases
  rcases hcases with (⟨hd, hlast⟩ | ⟨⟨hd0, hnots⟩, hnotl⟩) | ⟨⟨hlast, hnots⟩, hd0⟩
  · -- Case (a): empty ending, stem ends in 'i'.  The form is the stem, a
    -- radical key, so it fits in the window; the count cannot grow and the
    -- room component strictly shrinks.
    subst hd
    have hr : r ≠ [] := by
      intro h; subst h; simp at hlast
    have hi : 1 ≤ r.length := List.length_pos.mpr hr
    have hlastg : r[r.length - 1]? = some 'i' := by
      rw [← List.getLast?_eq_getElem?]; exact hlast
    have hsub : ∀ p, isolatedB (r ++ 'i' :: ([] : List Char)) p = true →
        isolatedB (r ++ ([] : List Char)) p = true := by
      intro p hiso
      rcases (by omega : p + 2 ≤ r.length ∨ p + 1 = r.length ∨
          p = r.length ∨ r.length + 1 ≤ p) with hp | hp | hp | hp
      · exact iso_low hp hiso
      · exfalso
        rw [isolatedB_iff] at hiso
        apply hiso.2.1
        rw [show p + 1 = r.length from hp]
        exact ins_get_at r []
      · exfalso
        rw [isolatedB_iff] at hiso
        rcases hiso.2.2 with h0 | hprev
        · omega
        · apply hprev
          subst hp
          rw [ins_get_lt (by omega)]
          rw [List.getElem?_append_left (by omega)]
          exact hlastg
      · exfalso
        rw [isolatedB_iff] at hiso
        have : (r ++ 'i' :: ([] : List Char))[p]? = (r ++ ([] : List Char))[p - 1]? :=
          ins_get_gt (by omega)
        rw [this, List.getElem?_eq_none (by simp; omega)] at hiso
        exact Option.noConfusion hiso.1
    have hPhi : Phi l (r ++ 'i' :: ([] : List Char)) ≤ Phi l (r ++ ([] : List Char)) := by
      apply Finset.card_le_card
      intro p hp
      rw [Finset.mem_filter, Finset.mem_range] at hp ⊢
      exact ⟨hp.1, hsub p hp.2⟩
    have hlen : (r ++ ([] : List Char)).length = r.length := by simp
    have hlen' : (r ++ 'i' :: ([] : List Char)).length = r.length + 1 := by simp
    unfold mu
    rw [hlen, hlen']
    have hm1 : min r.length (Kof l + 1) = r.length := by omega
    have hm2 : min (r.length + 1) (Kof l + 1) = r.length + 1 := by omega
    rw [hm1, hm2]
    have hmul : Phi l (r ++ 'i' :: ([] : List Char)) * (Kof l + 2) ≤
        Phi l (r ++ ([] : List Char)) * (Kof l + 2) :=
      Nat.mul_le_mul_right _ hPhi
    omega
  · -- Case (b): the ending starts with a single 'i', the stem does not end
    -- in 'i': the isolated 'i' at window position `r.length` is doubled.
    have hd0g : (r ++ d)[r.length]? = some 'i' := by
      rw [app_get_ge (Nat.le_refl _)]
      simpa [List.head?_eq_getElem?] using hd0
    have hd1g : (r ++ d)[r.length + 1]? ≠ some 'i' := by
      rw [app_get_ge (by omega)]
      have : d[1]? ≠ some 'i' := by
        intro hcon
        rw [Bool.eq_false_iff] at hnots
        apply hnots
        rw [prefII_iff]
        exact ⟨by simpa [List.head?_eq_getElem?] using hd0, hcon⟩
      simpa [show r.length + 1 - r.length = 1 from by omega] using this
    have hp0 : isolatedB (r ++ d) r.length = true := by
      rw [isolatedB_iff]
      refine ⟨hd0g, hd1g, ?_⟩
      rcases Nat.eq_zero_or_pos r.length with h0 | h0
      · exact Or.inl (by omega)
      · refine Or.inr ?_
        rw [List.getElem?_append_left (by omega), ← List.getLast?_eq_getElem?]
        simpa using hnotl
    have hz : ∀ p, isolatedB (r ++ 'i' :: d) p = true →
        p + 2 ≤ r.length ∨ r.length + 2 ≤ p := by
      intro p hiso
      by_contra hcon
      push_neg at hcon
      rw [isolatedB_iff] at hiso
      obtain ⟨h1, h2, h3⟩ := hiso
      rcases (by omega : p + 1 = r.length ∨ p = r.length ∨ p = r.length + 1)
        with hp | hp | hp
      · apply h2; rw [hp]; exact ins_get_at r d
      · apply h2
        subst hp
        rw [ins_get_gt (by omega)]
        simpa using hd0g
      · rcases h3 with h0 | hprev
        · omega
        · apply hprev
          subst hp
          simpa using ins_get_at r d
    have hPhi : Phi l (r ++ 'i' :: d) < Phi l (r ++ d) :=
      Phi_lt_of_shift l (r ++ d) (r ++ 'i' :: d) r.length r.length
        (by omega) hp0 (Or.inl rfl) hz
        (fun p hp hiso => iso_low hp hiso)
        (fun p hp hiso => iso_high hp hiso)
    exact mu_lt_of_Phi_lt hPhi
  · -- Case (c): the stem ends in a single 'i', the ending does not start
    -- with 'i': the isolated 'i' at window position `r.length - 1` is
    -- doubled.
    have hr : r ≠ [] := by
      intro h; subst h; simp at hlast
    have hi : 1 ≤ r.length := List.length_pos.mpr hr
    have hlastg : r[r.length - 1]? = some 'i' := by
      rw [← List.getLast?_eq_getElem?]; exact hlast
    have hd0g : (r ++ d)[r.length]? ≠ some 'i' := by
      rw [app_get_ge (Nat.le_refl _)]
      simpa [List.head?_eq_getElem?] using hd0
    have hp0 : isolatedB (r ++ d) (r.length - 1) = true := by
      rw [isolatedB_iff]
      refine ⟨?_, ?_, ?_⟩
      · rw [List.getElem?_append_left (by omega)]
        exact hlastg
      · rw [show r.length - 1 + 1 = r.length from by omega]
        exact hd0g
      · rcases (by omega : r.length = 1 ∨ 2 ≤ r.length) with h1 | h1
        · exact Or.inl (by omega)
        · refine Or.inr ?_
          rw [show r.length - 1 - 1 = r.length - 2 from by omega,
            List.getElem?_append_left (by omega)]
          exact sufII_absent hnots hlastg h1
    have hz : ∀ p, isolatedB (r ++ 'i' :: d) p = true →
        p + 2 ≤ r.length ∨ r.length + 2 ≤ p := by
      intro p hiso
      by_contra hcon
      push_neg at hcon
      rw [isolatedB_iff] at hiso
      obtain ⟨h1, h2, h3⟩ := hiso
      rcases (by omega : p + 1 = r.length ∨ p = r.length ∨ p = r.length + 1)
        with hp | hp | hp
      · apply h2; rw [hp]; exact ins_get_at r d
      · rcases h3 with h0 | hprev
        · omega
        · apply hprev
          subst hp
          rw [ins_get_lt (by omega), List.getElem?_append_left (by omega)]
          exact hlastg
      · apply hd0g
        subst hp
        rw [ins_get_gt (by omega)] at h1
        simpa using h1
    have hPhi : Phi l (r ++ 'i' :: d) < Phi l (r ++ d) :=
      Phi_lt_of_shift l (r ++ d) (r ++ 'i' :: d) r.length (r.length - 1)
        (by omega) hp0 (Or.inr (by omega)) hz
        (fun p hp hiso => iso_low hp hiso)
        (fun p hp hiso => iso_high hp hiso)
    exact mu_lt_of_Phi_lt hPhi

/-! ### Deramised forms are `deramise` fixpoints -/

theorem deramChar_out_fixed :
    ∀ (a : Char), ∀ c ∈ deramChar a, deramChar c = [c] := by
  intro a c hc
  by_cases ha : a ∈ deramPairs.map Prod.fst
  · have key : ∀ a ∈ deramPairs.map Prod.fst, ∀ c ∈ deramChar a,
        deramChar c = [c] := by decide
    exact key a ha c hc
  · have hfix : deramChar a = [a] := by
      simp [deramChar, lookupA_eq_none a deramPairs ha]
    rw [hfix] at hc
    simp only [List.mem_singleton] at hc
    subst hc
    exact hfix

theorem deramise_chars_fixed {s : List Char} :
    ∀ c ∈ deramise s, deramChar c = [c] := by
  intro c hc
  simp only [deramise, List.mem_flatMap] at hc
  obtain ⟨a, _, hca⟩ := hc
  exact deramChar_out_fixed a c hca

theorem deramise_eq_self_of_fixed {s : List Char}
    (h : ∀ c ∈ s, deramChar c = [c]) : deramise s = s := by
  induction s with
  | nil => rfl
  | cons c t ih =>
    have hc := h c (List.mem_cons_self c t)
    have ht := ih fun x hx => h x (List.mem_cons_of_mem c hx)
    simp only [deramise, List.flatMap_cons] at *
    rw [hc, ht]
    rfl

theorem deramise_insert_fixed (form : List Char) (i : Nat) :
    deramise ((deramise form).take i ++ 'i' :: (deramise form).drop i) =
      (deramise form).take i ++ 'i' :: (deramise form).drop i := by
  apply deramise_eq_self_of_fixed
  intro c hc
  rcases List.mem_append.mp hc with h | h
  · exact deramise_chars_fixed c (List.take_subset _ _ h)
  · rcases List.mem_cons.mp h with h | h
    · subst h; rfl
    · exact deramise_chars_fixed c (List.drop_subset _ _ h)

/-! ### Sufficient fuel for `lemmatizeRaw` -/

theorem splitStep_isSome {l : Lemmat} {cV cAe cOe : Nat}
    {rawRec : List Char → Option (List (Lemma × Analysis))} {r d : List Char}
    (h : ∀ rads, lookupA r l.radicals = some rads → needDoubleI r d = true →
      (rawRec (r ++ 'i' :: d)).isSome = true) :
    (splitStep l cV cAe cOe rawRec r d).isSome = true := by
  unfold splitStep
  cases hl : lookupA r l.radicals with
  | none => rfl
  | some rads =>
    by_cases hn : needDoubleI r d = true
    · have hrec := h rads hl hn
      rw [Option.isSome_iff_exists] at hrec
      obtain ⟨nm, hnm⟩ := hrec
      simp [hn, hnm]
    · simp only [Bool.not_eq_true] at hn
      simp [hn]

theorem rawLoop_isSome {l : Lemmat} {cV cAe cOe : Nat}
    {rawRec : List Char → Option (List (Lemma × Analysis))} {f : List Char}
    (is : List Nat)
    (H : ∀ i ∈ is,
      (splitStep l cV cAe cOe rawRec (f.take i) (f.drop i)).isSome = true) :
    (rawLoop l cV cAe cOe rawRec f is).isSome = true := by
  induction is with
  | nil => rfl
  | cons i t ih =>
    have h1 := H i (List.mem_cons_self i t)
    rw [Option.isSome_iff_exists] at h1
    obtain ⟨x, hx⟩ := h1
    have h2 := ih fun j hj => H j (List.mem_cons_of_mem i hj)
    rw [Option.isSome_iff_exists] at h2
    obtain ⟨xs, hxs⟩ := h2
    simp [rawLoop, hx, hxs]

/-- Fuel `nu l form + 1` always suffices for `lemmatizeRaw`: the measure
strictly decreases along every ii/ī recursive call. -/
theorem rawFuel_isSome (l : Lemmat) :
    ∀ (n : Nat) (form : List Char), nu l form < n →
      (rawFuel l n form).isSome = true := by
  intro n
  induction n with
  | zero => intro form h; omega
  | succ n ih =>
    intro form h
    have hloop : (rawLoop l (countsOf form).1 (countsOf form).2.1
        (countsOf form).2.2 (rawFuel l n) (deramise form)
        (List.range ((deramise form).length + 1))).isSome = true := by
      apply rawLoop_isSome
      intro i _
      apply splitStep_isSome
      intro rads hrads hneed
      apply ih
      have hdec := mu_decrease l ((deramise form).take i)
        ((deramise form).drop i) rads hrads hneed
      rw [List.take_append_drop] at hdec
      have hfix := deramise_insert_fixed form i
      unfold nu
      rw [hfix]
      unfold nu at h
      omega
    rw [Option.isSome_iff_exists] at hloop
    obtain ⟨xs, hxs⟩ := hloop
    simp only [rawFuel, hxs]
    rfl

/-! ## Fallback cascade (`lemmatizeM`, `lemmatizeMEtape`, lemmatize.go) -/

/-- `enclitics` (lemmatize.go): suffixes stripped at stage 1, in order. -/
def encliticsL : List (List Char) :=
  [tl "ne", tl "que", tl "ue", tl "ve", tl "st"]

/-- Scanner of `Lemmat::assim`: first table entry whose key is a prefix
(list order standing in for Go's map iteration order; no claim depends on
which entry fires). -/
def assimGo (tbl : List (List Char × List Char)) (a : List Char) : List Char :=
  match tbl with
  | [] => a
  | (pre, post) :: t =>
    if pre.isPrefixOf a then post ++ a.drop pre.length else assimGo t a

/-- `Lemmat::assim` (lemmatize.go). -/
def Lemmat.assim (l : Lemmat) (a : List Char) : List Char := assimGo l.assims a

/-- Scanner of `Lemmat::desassim`: the reverse substitution. -/
def desassimGo (tbl : List (List Char × List Char)) (a : List Char) :
    List Char :=
  match tbl with
  | [] => a
  | (unas, asm) :: t =>
    if asm.isPrefixOf a then unas ++ a.drop asm.length else desassimGo t a

/-- `Lemmat::desassim` (lemmatize.go). -/
def Lemmat.desassim (l : Lemmat) (a : List Char) : List Char :=
  desassimGo l.assims a

/-- Scanner of `Lemmat::decontracte`: first table entry whose key is a
suffix, replaced by its expansion. -/
def decontracteGo (tbl : List (List Char × List Char)) (d : List Char) :
    List Char :=
  match tbl with
  | [] => d
  | (suf, expanded) :: t =>
    if suf.isSuffixOf d then d.take (d.length - suf.length) ++ expanded
    else decontracteGo t d

/-- `Lemmat::decontracte` (lemmatize.go). -/
def Lemmat.decontracte (l : Lemmat) (d : List Char) : List Char :=
  decontracteGo l.contractions d

/-- The `runes[0] = unicode.ToUpper(runes[0])` step of stage 0. -/
def capitalizeFirst : List Char → List Char
  | [] => []
  | c :: t => goToUpperChar c :: t

/-- `lemmatizeRaw` with its provably sufficient fuel (`rawFuel_isSome`):
this is the total raw matcher the cascade invokes. -/
def lemRaw (l : Lemmat) (form : List Char) :
    Option (List (Lemma × Analysis)) :=
  rawFuel l (nu l form + 1) form

/-- The enclitic loop of stage 1 (lemmatize.go lines 237-252): stop as
soon as the accumulator is non-empty; strip a matching suffix (re-adding
`s` for the `st` enclitic) and re-enter stage 1 through `rec1`. -/
def encLoop (rec1 : List Char → Option (List (Lemma × Analysis)))
    (form : List Char) :
    List (List Char) → List (Lemma × Analysis) →
      Option (List (Lemma × Analysis))
  | [], mm => some mm
  | suf :: rest, mm =>
    if ¬ mm.isEmpty then some mm
    else if suf.isSuffixOf form then
      match (if suf = tl "st" then
          rec1 (form.take (form.length - suf.length) ++ ['s'])
        else rec1 (form.take (form.length - suf.length))) with
      | none => none
      | some mm' => encLoop rec1 form rest mm'
    else encLoop rec1 form rest mm

/-- `lemmatizeMEtape` (lemmatize.go), fuel-indexed on the recursion depth
of the cascade itself (the raw matcher runs through `lemRaw`).  `none`
means the cascade fuel ran out. -/
def cascadeFuel (l : Lemmat) :
    Nat → List Char → Bool → Nat → Option (List (Lemma × Analysis))
  | 0, _, _, _ => none
  | n + 1, form, ss, etape =>
    if form = [] then some []
    else if 3 < etape then
      match lemRaw l form with
      | none => none
      | some mm =>
        if ss && !form.isEmpty && goIsUpper (form.headD ' ') then
          match cascadeFuel l n (goToLower form) false 4 with
          | none => none
          | some mm2 => some (mm ++ mm2)
        else some mm
    else
      match cascadeFuel l n form ss (etape + 1) with
      | none => none
      | some mm =>
        match etape with
        | 3 =>
          if l.decontracte form ≠ form then
            match cascadeFuel l n (l.decontracte form) ss 4 with
            | none => none
            | some m2 => some (mm ++ m2)
          else some mm
        | 2 =>
          if l.assim form ≠ form then
            match cascadeFuel l n (l.assim form) ss 3 with
            | none => none
            | some m2 => some (mm ++ m2)
          else if l.desassim form ≠ form then
            match cascadeFuel l n (l.desassim form) ss 3 with
            | none => none
            | some m2 => some (mm ++ m2)
          else some mm
        | 1 =>
          if mm.isEmpty then
            encLoop (fun g => cascadeFuel l n g ss 1) form encliticsL mm
          else some mm
        | 0 =>
          if mm.isEmpty && !form.isEmpty && goIsLower (form.headD ' ') then
            cascadeFuel l n (capitalizeFirst form) false 1
          else some mm
        | _ => some mm

/-- `lemmatizeM` / `LemmatizeWord` (lemmatize.go, collatinus.go): enter the
cascade at stage 0. -/
def lemmatizeWord (l : Lemmat) (n : Nat) (form : List Char) (ss : Bool) :
    Option (List (Lemma × Analysis)) :=
  cascadeFuel l n form ss 0

/-! ### Sufficient fuel for the cascade -/

/-- Decreasing measure of the cascade: stages 0-1 rank above the rest
(their enclitic recursion keeps the stage but shortens the form), the
others by remaining stage budget, then the sentence-start flag (the
stage-4 sentence-start recursion keeps the stage but clears the flag). -/
def cascadeMeasure (form : List Char) (ss : Bool) (etape : Nat) : Nat :=
  if etape ≤ 1 then 10 + 2 * form.length + (1 - etape)
  else 2 * (4 - min etape 4) + (if ss then 1 else 0)

theorem cascadeMeasure_low {form : List Char} {ss : Bool} {etape : Nat}
    (h : etape ≤ 1) :
    cascadeMeasure form ss etape = 10 + 2 * form.length + (1 - etape) :=
  if_pos h

theorem cascadeMeasure_high {form : List Char} {ss : Bool} {etape : Nat}
    (h : 2 ≤ etape) :
    cascadeMeasure form ss etape =
      2 * (4 - min etape 4) + (if ss then 1 else 0) :=
  if_neg (by omega)

theorem capitalizeFirst_length (f : List Char) :
    (capitalizeFirst f).length = f.length := by
  cases f <;> rfl

theorem goToLower_length (f : List Char) : (goToLower f).length = f.length :=
  List.length_map f goToLowerChar

theorem encLoop_isSome
    {rec1 : List Char → Option (List (Lemma × Analysis))} {form : List Char}
    (hrec : ∀ g : List Char, g.length < form.length →
      (rec1 g).isSome = true) :
    ∀ (sufs : List (List Char)), (∀ s ∈ sufs, s ≠ []) →
    ∀ (mm : List (Lemma × Analysis)),
      (encLoop rec1 form sufs mm).isSome = true := by
  intro sufs
  induction sufs with
  | nil => intro _ mm; rfl
  | cons s rest ih =>
    intro hsufs mm
    unfold encLoop
    by_cases hmm : ¬ mm.isEmpty
    · rw [if_pos hmm]; rfl
    · rw [if_neg hmm]
      by_cases hsf : s.isSuffixOf form = true
      · rw [if_pos hsf]
        have hslen : s.length ≤ form.length :=
          List.IsSuffix.length_le (List.isSuffixOf_iff_suffix.mp hsf)
        have hne : s ≠ [] := hsufs s (List.mem_cons_self s rest)
        have hlen1 : 1 ≤ s.length := List.length_pos.mpr hne
        by_cases hst : s = tl "st"
        · have harg :
              (form.take (form.length - s.length) ++ ['s']).length <
                form.length := by
            subst hst
            simp only [List.length_append, List.length_take,
              List.length_singleton]
            have h2 : (tl "st").length = 2 := rfl
            rw [h2] at hslen ⊢
            omega
          have hsome := hrec _ harg
          rw [Option.isSome_iff_exists] at hsome
          obtain ⟨mm', hmm'⟩ := hsome
          rw [if_pos hst, hmm']
          exact ih (fun x hx => hsufs x (List.mem_cons_of_mem s hx)) mm'
        · have harg : (form.take (form.length - s.length)).length <
              form.length := by
            simp only [List.length_take]
            omega
          have hsome := hrec _ harg
          rw [Option.isSome_iff_exists] at hsome
          obtain ⟨mm', hmm'⟩ := hsome
          rw [if_neg hst, hmm']
          exact ih (fun x hx => hsufs x (List.mem_cons_of_mem s hx)) mm'
      · rw [if_neg hsf]
        exact ih (fun x hx => hsufs x (List.mem_cons_of_mem s hx)) mm

/-- Fuel `cascadeMeasure + 1` always suffices for the cascade: every
recursive call decreases `cascadeMeasure`, and the embedded raw matcher is
total by `rawFuel_isSome`. -/
theorem cascadeFuel_isSome (l : Lemmat) :
    ∀ (n : Nat) (form : List Char) (ss : Bool) (etape : Nat),
      cascadeMeasure form ss etape < n →
      (cascadeFuel l n form ss etape).isSome = true := by
  intro n
  induction n with
  | zero => intro _ _ _ h; omega
  | succ n ih =>
    intro form ss etape h
    unfold cascadeFuel
    by_cases hform : form = []
    · rw [if_pos hform]; rfl
    · rw [if_neg hform]
      by_cases hetape : 3 < etape
      · rw [if_pos hetape]
        have hraw : (lemRaw l form).isSome = true :=
          rawFuel_isSome l _ form (by omega)
        rw [Option.isSome_iff_exists] at hraw
        obtain ⟨mm, hmm⟩ := hraw
        rw [hmm]
        dsimp only
        by_cases hguard :
            (ss && !form.isEmpty && goIsUpper (form.headD ' ')) = true
        · rw [if_pos hguard]
          have hss : ss = true := by
            rcases Bool.and_eq_true .. |>.mp hguard with ⟨h1, -⟩
            exact (Bool.and_eq_true .. |>.mp h1).1
          have hmin : min etape 4 = 4 := Nat.min_eq_right (by omega)
          have hM : cascadeMeasure (goToLower form) false 4 < n := by
            rw [cascadeMeasure_high (by omega)] at h
            rw [cascadeMeasure_high (by omega)]
            rw [hss, hmin] at h
            simp at h ⊢
            omega
          have hrec := ih (goToLower form) false 4 hM
          rw [Option.isSome_iff_exists] at hrec
          obtain ⟨mm2, hmm2⟩ := hrec
          rw [hmm2]
          rfl
        · rw [if_neg hguard]
          rfl
      · rw [if_neg hetape]
        have hMbase : cascadeMeasure form ss (etape + 1) < n := by
          rcases (by omega : etape = 0 ∨ etape = 1 ∨ etape = 2 ∨ etape = 3)
            with he | he | he | he <;> subst he
          · rw [cascadeMeasure_low (by omega)] at h ⊢; omega
          · rw [cascadeMeasure_low (by omega)] at h
            rw [cascadeMeasure_high (by omega)]
            rcases ss with _ | _ <;> simp <;> omega
          · rw [cascadeMeasure_high (by omega)] at h
            rw [cascadeMeasure_high (by omega)]
            rcases ss with _ | _ <;> simp_all <;> omega
          · rw [cascadeMeasure_high (by omega)] at h
            rw [cascadeMeasure_high (by omega)]
            rcases ss with _ | _ <;> simp_all <;> omega
        have hbase := ih form ss (etape + 1) hMbase
        rw [Option.isSome_iff_exists] at hbase
        obtain ⟨mm, hmm⟩ := hbase
        rcases (by omega : etape = 0 ∨ etape = 1 ∨ etape = 2 ∨ etape = 3)
          with he | he | he | he <;> subst he <;> rw [hmm] <;> dsimp only
        · -- stage 0: the capitalize branch re-enters at stage 1.
          by_cases hg :
              (mm.isEmpty && !form.isEmpty && goIsLower (form.headD ' ')) = true
          · rw [if_pos hg]
            exact ih (capitalizeFirst form) false 1 (by
              rw [cascadeMeasure_low (by omega)] at h ⊢
              rw [capitalizeFirst_length]
              omega)
          · rw [if_neg hg]; rfl
        · -- stage 1: the enclitic loop re-enters at stage 1 on a shorter
          -- form.
          by_cases hg : mm.isEmpty = true
          · rw [if_pos hg]
            exact encLoop_isSome (fun g hlen => ih g ss 1 (by
                rw [cascadeMeasure_low (by omega)] at h ⊢
                omega)) encliticsL (by decide) mm
          · rw [if_neg hg]; rfl
        · -- stage 2: assimilation / de-assimilation recurse at stage 3.
          have hM3 : ∀ g : List Char, cascadeMeasure g ss 3 < n := by
            intro g
            rw [cascadeMeasure_high (by omega)] at h ⊢
            rcases ss with _ | _ <;> simp_all <;> omega
          by_cases hg : l.assim form ≠ form
          · rw [if_pos hg]
            have hrec := ih (l.assim form) ss 3 (hM3 _)
            rw [Option.isSome_iff_exists] at hrec
            obtain ⟨m2, hm2⟩ := hrec
            rw [hm2]; rfl
          · rw [if_neg hg]
            by_cases hg2 : l.desassim form ≠ form
            · rw [if_pos hg2]
              have hrec := ih (l.desassim form) ss 3 (hM3 _)
              rw [Option.isSome_iff_exists] at hrec
              obtain ⟨m2, hm2⟩ := hrec
              rw [hm2]; rfl
            · rw [if_neg hg2]; rfl
        · -- stage 3: contraction expansion recurses at stage 4.
          by_cases hg : l.decontracte form ≠ form
          · rw [if_pos hg]
            have hM4 : cascadeMeasure (l.decontracte form) ss 4 < n := by
              rw [cascadeMeasure_high (by omega)] at h ⊢
              rcases ss with _ | _ <;> simp_all <;> omega
            have hrec := ih (l.decontracte form) ss 4 hM4
            rw [Option.isSome_iff_exists] at hrec
            obtain ⟨m2, hm2⟩ := hrec
            rw [hm2]; rfl
          · rw [if_neg hg]; rfl

/-! ## Claims C1, C10, C8 -/

/-- C1: the lemmatization cascade terminates on every input: for every
lemmatizer state, input form and sentence-start flag, some finite fuel
makes the raw matcher — including its ii/ī-insertion recursion — and the
cascade entered at stage 0 — including the enclitic-stripping recursion at
stage 1 — return; no input causes unbounded recursion. -/
theorem C1_cascade_terminates (l : Lemmat) (form : List Char) (ss : Bool) :
    (∃ n, (rawFuel l n form).isSome = true) ∧
      (∃ n, (lemmatizeWord l n form ss).isSome = true) :=
  ⟨⟨nu l form + 1, rawFuel_isSome l _ form (by omega)⟩,
   ⟨cascadeMeasure form ss 0 + 1,
    cascadeFuel_isSome l _ form ss 0 (by omega)⟩⟩

/-- C10: lemmatizing the empty string returns an empty (nil) result
immediately, for every lemmatizer state and sentence-start flag (and any
fuel that lets the function start): the `form == ""` guard at the top of
`lemmatizeMEtape` fires before any index or fallback is consulted, which
is why the result is uniform in `l`. -/
theorem C10_empty_form (l : Lemmat) (ss : Bool) (n : Nat) :
    lemmatizeWord l (n + 1) [] ss = some [] := by
  unfold lemmatizeWord cascadeFuel
  rw [if_pos rfl]

/-- C8: query-time operations never fail: lemmatization always returns a
(possibly empty) result map for some fuel; `Morpho` returns the empty
string for every integer slot outside `[1, number of loaded
descriptions]`; lemma lookup returns absent (`none`) for every key whose
normalization is not in the lemma index. -/
theorem C8_queries_never_fail (l : Lemmat) :
    (∀ (form : List Char) (ss : Bool),
      ∃ n, (lemmatizeWord l n form ss).isSome = true) ∧
    (∀ m : Int, (m < 1 ∨ (l.morphos.length : Int) - 1 < m) →
      l.morpho m = []) ∧
    (∀ key : List Char, normalizeKey key ∉ l.lemmas.map Prod.fst →
      l.lemmaByForm key = none) := by
  refine ⟨fun form ss => ⟨cascadeMeasure form ss 0 + 1,
      cascadeFuel_isSome l _ form ss 0 (by omega)⟩, ?_, ?_⟩
  · intro m hm
    unfold Lemmat.morpho
    rw [if_pos (by omega)]
  · intro key hk
    unfold Lemmat.lemmaByForm
    exact lookupA_eq_none _ _ hk

/-- Witness for C8 at the concrete empty-index lemmatizer: an unknown word
still lemmatizes (to an empty map), an out-of-range slot yields the empty
string, an unknown key yields `none`. -/
theorem C8_witness :
    (∃ n, (lemmatizeWord cexC2Lemmat n (tl "rosa") false).isSome = true) ∧
      cexC2Lemmat.morpho 99 = [] ∧
      cexC2Lemmat.lemmaByForm (tl "zzz") = none := by
  obtain ⟨h1, h2, h3⟩ := C8_queries_never_fail cexC2Lemmat
  exact ⟨h1 (tl "rosa") false, h2 99 (by decide), h3 (tl "zzz") (by decide)⟩

/-! ## Claim C5: the stage argument of the cascade's recursive calls -/

/-- The `(form, sentence_start, etape)` arguments of the recursive calls
the stage-1 enclitic loop performs, in order; the loop's guards evaluate
the deeper results through `cascadeFuel` with the given fuel. -/
def encLoopCalls (l : Lemmat) (n : Nat) (ss : Bool) (form : List Char) :
    List (List Char) → List (Lemma × Analysis) →
      Option (List (List Char × Bool × Nat))
  | [], _ => some []
  | suf :: rest, mm =>
    if ¬ mm.isEmpty then some []
    else if suf.isSuffixOf form then
      match (if suf = tl "st" then
          cascadeFuel l n (form.take (form.length - suf.length) ++ ['s']) ss 1
        else cascadeFuel l n (form.take (form.length - suf.length)) ss 1) with
      | none => none
      | some mm' =>
        match encLoopCalls l n ss form rest mm' with
        | none => none
        | some cs =>
          some (((if suf = tl "st" then
              form.take (form.length - suf.length) ++ ['s']
            else form.take (form.length - suf.length)), ss, 1) :: cs)
    else encLoopCalls l n ss form rest mm

/-- The `(form, sentence_start, etape)` arguments of the direct recursive
calls one invocation `lemmatizeMEtape(form, ss, etape)` performs, in
source order, transcribed from the branch structure of lemmatize.go; the
guards that depend on deeper results evaluate them through `cascadeFuel`
with the given fuel (`none` = fuel exhausted during a guard). -/
def cascadeCallsFuel (l : Lemmat) (n : Nat) (form : List Char) (ss : Bool)
    (etape : Nat) : Option (List (List Char × Bool × Nat)) :=
  if form = [] then some []
  else if 3 < etape then
    if ss && !form.isEmpty && goIsUpper (form.headD ' ') then
      some [(goToLower form, false, 4)]
    else some []
  else
    match cascadeFuel l n form ss (etape + 1) with
    | none => none
    | some mm =>
      match etape with
      | 3 =>
        if l.decontracte form ≠ form then
          some [(form, ss, etape + 1), (l.decontracte form, ss, 4)]
        else some [(form, ss, etape + 1)]
      | 2 =>
        if l.assim form ≠ form then
          some [(form, ss, etape + 1), (l.assim form, ss, 3)]
        else if l.desassim form ≠ form then
          some [(form, ss, etape + 1), (l.desassim form, ss, 3)]
        else some [(form, ss, etape + 1)]
      | 1 =>
        if mm.isEmpty then
          match encLoopCalls l n ss form encliticsL mm with
          | none => none
          | some cs => some ((form, ss, etape + 1) :: cs)
        else some [(form, ss, etape + 1)]
      | 0 =>
        if mm.isEmpty && !form.isEmpty && goIsLower (form.headD ' ') then
          some [(form, ss, etape + 1), (capitalizeFirst form, false, 1)]
        else some [(form, ss, etape + 1)]
      | _ => some [(form, ss, etape + 1)]

def cexC5Calls : List (List Char × Bool × Nat) :=
  [(tl "ane", false, 2), (tl "a", false, 1)]

/-- C5, counterexample: at stage 1 on the form `ane` (with an empty
lemmatizer, so the deeper stages find nothing) the enclitic branch strips
`ne` and recurses at stage 1 — a recursive call whose stage argument does
*not* exceed the caller's stage 1. -/
theorem C5_counterexample :
    cascadeCallsFuel cexC2Lemmat 20 (tl "ane") false 1 = some cexC5Calls ∧
      (tl "a", false, 1) ∈ cexC5Calls ∧ ¬ ((1 : Nat) < 1) := by
  refine ⟨by decide, by decide, by omega⟩

theorem encLoopCalls_spec {l : Lemmat} {n : Nat} {ss : Bool}
    {form : List Char} :
    ∀ (sufs : List (List Char)), (∀ s ∈ sufs, s ≠ []) →
    ∀ (mm : List (Lemma × Analysis)) (cs : List (List Char × Bool × Nat)),
      encLoopCalls l n ss form sufs mm = some cs →
      ∀ c ∈ cs, c.2.2 = 1 ∧ c.1.length < form.length ∧ c.2.1 = ss := by
  intro sufs
  induction sufs with
  | nil =>
    intro _ mm cs h c hc
    unfold encLoopCalls at h
    injection h with h
    subst h
    simp at hc
  | cons s rest ih =>
    intro hsufs mm cs h c hc
    unfold encLoopCalls at h
    by_cases hmm : ¬ mm.isEmpty
    · rw [if_pos hmm] at h
      injection h with h
      subst h
      simp at hc
    · rw [if_neg hmm] at h
      by_cases hsf : s.isSuffixOf form = true
      · rw [if_pos hsf] at h
        have hslen : s.length ≤ form.length :=
          List.IsSuffix.length_le (List.isSuffixOf_iff_suffix.mp hsf)
        have hne : s ≠ [] := hsufs s (List.mem_cons_self s rest)
        have hlen1 : 1 ≤ s.length := List.length_pos.mpr hne
        cases hcf : (if s = tl "st" then
            cascadeFuel l n (form.take (form.length - s.length) ++ ['s']) ss 1
          else cascadeFuel l n (form.take (form.length - s.length)) ss 1) with
        | none => rw [hcf] at h; simp at h
        | some mm' =>
          rw [hcf] at h
          dsimp only at h
          cases hrest : encLoopCalls l n ss form rest mm' with
          | none => rw [hrest] at h; simp at h
          | some cs' =>
            rw [hrest] at h
            dsimp only at h
            injection h with h
            subst h
            rcases List.mem_cons.mp hc with hc | hc
            · subst hc
              by_cases hst : s = tl "st"
              · rw [if_pos hst]
                refine ⟨rfl, ?_, rfl⟩
                subst hst
                simp only [List.length_append, List.length_take,
                  List.length_singleton]
                have h2 : (tl "st").length = 2 := rfl
                rw [h2] at hslen ⊢
                omega
              · rw [if_neg hst]
                refine ⟨rfl, ?_, rfl⟩
                simp only [List.length_take]
                omega
            · exact ih (fun x hx => hsufs x (List.mem_cons_of_mem s hx))
                mm' cs' hrest c hc
      · rw [if_neg hsf] at h
        exact ih (fun x hx => hsufs x (List.mem_cons_of_mem s hx)) mm cs h c hc

/-- C5 (amended): every recursive call the cascade makes either passes a
stage argument strictly greater than the caller's, or is the
enclitic-stripping call of stage 1 (stage preserved, form strictly
shorter, flag preserved), or the sentence-start call of the terminal
stage (stage 4, sentence-start flag cleared from true to false). -/
theorem C5_stage_monotone (l : Lemmat) (n : Nat) (form : List Char)
    (ss : Bool) (etape : Nat) (calls : List (List Char × Bool × Nat))
    (h : cascadeCallsFuel l n form ss etape = some calls) :
    ∀ c ∈ calls,
      etape < c.2.2 ∨
      (etape = 1 ∧ c.2.2 = 1 ∧ c.1.length < form.length ∧ c.2.1 = ss) ∨
      (4 ≤ etape ∧ c.2.2 = 4 ∧ ss = true ∧ c.2.1 = false) := by
  intro c hc
  unfold cascadeCallsFuel at h
  by_cases hform : form = []
  · rw [if_pos hform] at h
    injection h with h
    subst h
    simp at hc
  · rw [if_neg hform] at h
    by_cases hetape : 3 < etape
    · rw [if_pos hetape] at h
      by_cases hg : (ss && !form.isEmpty && goIsUpper (form.headD ' ')) = true
      · rw [if_pos hg] at h
        injection h with h
        subst h
        rcases List.mem_singleton.mp hc with rfl
        refine Or.inr (Or.inr ⟨by omega, rfl, ?_, rfl⟩)
        rcases Bool.and_eq_true .. |>.mp hg with ⟨h1, -⟩
        exact (Bool.and_eq_true .. |>.mp h1).1
      · rw [if_neg hg] at h
        injection h with h
        subst h
        simp at hc
    · rw [if_neg hetape] at h
      cases hcf : cascadeFuel l n form ss (etape + 1) with
      | none => rw [hcf] at h; simp at h
      | some mm =>
        rw [hcf] at h
        rcases (by omega : etape = 0 ∨ etape = 1 ∨ etape = 2 ∨ etape = 3)
          with he | he | he | he <;> subst he <;> dsimp only at h
        · by_cases hg :
              (mm.isEmpty && !form.isEmpty && goIsLower (form.headD ' ')) = true
          · rw [if_pos hg] at h
            injection h with h
            subst h
            rcases List.mem_cons.mp hc with rfl | hc
            · exact Or.inl (by simp)
            · rcases List.mem_singleton.mp hc with rfl
              exact Or.inl (by simp)
          · rw [if_neg hg] at h
            injection h with h
            subst h
            rcases List.mem_singleton.mp hc with rfl
            exact Or.inl (by simp)
        · by_cases hg : mm.isEmpty = true
          · rw [if_pos hg] at h
            cases hloop : encLoopCalls l n ss form encliticsL mm with
            | none => rw [hloop] at h; exact Option.noConfusion h
            | some cs =>
              rw [hloop] at h
              injection h with h
              subst h
              rcases List.mem_cons.mp hc with rfl | hc
              · exact Or.inl (by simp)
              · obtain ⟨h1, h2, h3⟩ := encLoopCalls_spec encliticsL
                  (by decide) mm cs hloop c hc
                exact Or.inr (Or.inl ⟨rfl, h1, h2, h3⟩)
          · rw [if_neg hg] at h
            injection h with h
            subst h
            rcases List.mem_singleton.mp hc with rfl
            exact Or.inl (by simp)
        · by_cases hg : l.assim form ≠ form
          · rw [if_pos hg] at h
            injection h with h
            subst h
            rcases List.mem_cons.mp hc with rfl | hc
            · exact Or.inl (by simp)
            · rcases List.mem_singleton.mp hc with rfl
              exact Or.inl (by simp)
          · rw [if_neg hg] at h
            by_cases hg2 : l.desassim form ≠ form
            · rw [if_pos hg2] at h
              injection h with h
              subst h
              rcases List.mem_cons.mp hc with rfl | hc
              · exact Or.inl (by simp)
              · rcases List.mem_singleton.mp hc with rfl
                exact Or.inl (by simp)
            · rw [if_neg hg2] at h
              injection h with h
              subst h
              rcases List.mem_singleton.mp hc with rfl
              exact Or.inl (by simp)
        · by_cases hg : l.decontracte form ≠ form
          · rw [if_pos hg] at h
            injection h with h
            subst h
            rcases List.mem_cons.mp hc with rfl | hc
            · exact Or.inl (by simp)
            · rcases List.mem_singleton.mp hc with rfl
              exact Or.inl (by simp)
          · rw [if_neg hg] at h
            injection h with h
            subst h
            rcases List.mem_singleton.mp hc with rfl
            exact Or.inl (by simp)

/-- Witness for C5 at the counterexample's enclitic call: the call
`("a", false, 1)` recorded at stage 1 on `"ane"` satisfies the amended
disjunction through its second (enclitic) branch. -/
theorem C5_witness :
    (1 : Nat) < (1 : Nat) ∨
      ((1 : Nat) = 1 ∧ (1 : Nat) = 1 ∧ (tl "a").length < (tl "ane").length ∧
        false = false) ∨
      (4 ≤ (1 : Nat) ∧ (1 : Nat) = 4 ∧ false = true ∧ false = false) := by
  have h := C5_stage_monotone cexC2Lemmat 20 (tl "ane") false 1 cexC5Calls
    (by decide) (tl "a", false, 1) (by decide)
  simpa using h

/-! ## Claim C6: model compilation and the absent set (`parseModel`,
part_000)

`parseModel` is embedded at the directive level: the string-level field
splitting (`strings.Split(line, ":")`), `$variable` substitution and
`ListI` range expansion happen upstream of the behaviour under test and
are not re-modelled; a malformed line (too few fields), which Go skips,
is represented by omitting its directive.  The registration of every new
desinence in the global endings index (`l.addDesinence`) is a side output
that does not influence the compiled model and is not modelled. -/

/-- One pre-parsed directive line of a `modeles.la` block. -/
inductive Directive where
  | modele (name : String)
  | pere (parent : Option Model)
  | des (plus : Bool) (morphoNums : List Int) (radNum : Int)
        (groups : List (List (List Char)))
  | radical (n : Int) (rule : String)
  | abs (nums : List Int)
  | absPlus (nums : List Int)
  | pos (c : Char)
  | suf (morphoNums : List Int) (suffix : List Char)
  | sufd (suffix : List Char)

/-- Mutable compilation state of `parseModel`. -/
structure PState where
  name : String
  parent : Option Model
  radicalRules : List (Int × String)
  absents : List Int
  desinences : List (Int × List Desinence)
  posC : Char
  sufEntries : List (List Char × Int)

/-- Go's `m.Desinences[mn] = append(m.Desinences[mn], vs...)`: extend the
slot's list, creating the key when absent. -/
def appendAt (m : List (Int × List Desinence)) (k : Int)
    (vs : List Desinence) : List (Int × List Desinence) :=
  match m with
  | [] => [(k, vs)]
  | (k', l) :: t =>
    if k = k' then (k', l ++ vs) :: t else (k', l) :: appendAt t k vs

/-- Go's `m.RadicalRules[rn] = rule`: overwrite-or-insert. -/
def setRule (m : List (Int × String)) (k : Int) (v : String) :
    List (Int × String) :=
  match m with
  | [] => [(k, v)]
  | (k', v') :: t => if k = k' then (k, v) :: t else (k', v') :: setRule t k v

/-- Group selection of the `des` directive: the i-th `;`-group, the last
group when the list is short, one empty ending when there are no groups
(mirroring `strings.Split("", ",") = [""]`). -/
def desGroup (groups : List (List (List Char))) (i : Nat) :
    List (List Char) :=
  match groups.get? i with
  | some g => g
  | none =>
    match groups.getLast? with
    | some g => g
    | none => [[]]

/-- One directive applied to the compilation state (the `switch` of
`parseModel`). -/
def stepDirective (newId : Nat) (st : PState) : Directive → PState
  | .modele nm => { st with name := nm }
  | .pere p => { st with parent := p }
  | .des plus morphoNums radNum groups =>
    let st1 := morphoNums.enum.foldl (fun acc p =>
      (desGroup groups p.1).foldl (fun acc2 g =>
        { acc2 with desinences := (appendAt acc2.desinences p.2
            [⟨if g = tl "-" then [] else g,
              atone (if g = tl "-" then [] else g), p.2, radNum, newId⟩]) })
        acc) st
    if plus then
      match st1.parent with
      | none => st1
      | some par =>
        morphoNums.foldl (fun acc mn =>
          { acc with desinences := (appendAt acc.desinences mn
              ((par.desinencesAt mn).map fun dp =>
                ⟨dp.grq, dp.gr, dp.morphoNum, dp.radNum, newId⟩)) }) st1
    else st1
  | .radical n rule =>
    { st with radicalRules := setRule st.radicalRules n rule }
  | .abs nums => { st with absents := nums }
  | .absPlus nums => { st with absents := st.absents ++ nums }
  | .pos c => { st with posC := c }
  | .suf morphoNums s =>
    { st with sufEntries := st.sufEntries ++ morphoNums.map fun mn => (s, mn) }
  | .sufd s =>
    match st.parent with
    | none => st
    | some par =>
      (par.desinences.flatMap Prod.snd).foldl (fun acc dp =>
        if st.absents.contains dp.morphoNum then acc
        else { acc with desinences := (appendAt acc.desinences dp.morphoNum
            [⟨dp.grq ++ s, atone (dp.grq ++ s), dp.morphoNum, dp.radNum,
              newId⟩]) }) st

def initPState : PState := ⟨"", none, [], [], [], Char.ofNat 0, []⟩

/-- The directive fold of `parseModel`, starting from the zero state. -/
def compileDirs (newId : Nat) (dirs : List Directive) : PState :=
  dirs.foldl (stepDirective newId) initPState

/-- Inheritance step 1 of `parseModel`: POS from the parent when unset. -/
def inheritPos (st : PState) : Char :=
  if st.posC = Char.ofNat 0 then
    match st.parent with | some p => p.pos | none => st.posC
  else st.posC

/-- Inheritance step 2 of `parseModel`: clone the parent's endings at
every slot the child does not define, skipping the child's declared
absents, rebinding the clone's model id. -/
def inheritDes (newId : Nat) (st : PState) : List (Int × List Desinence) :=
  match st.parent with
  | none => st.desinences
  | some par =>
    par.desinences.foldl (fun acc p =>
      if (lookupA p.1 acc).isSome then acc
      else p.2.foldl (fun acc2 dp =>
        if st.absents.contains dp.morphoNum then acc2
        else appendAt acc2 p.1
          [⟨dp.grq, dp.gr, dp.morphoNum, dp.radNum, newId⟩]) acc)
      st.desinences

/-- Inheritance step 3 of `parseModel`: copy the parent's radical rule for
every radical number the (post-inheritance) endings use and the child
lacks. -/
def inheritRules (st : PState) (des1 : List (Int × List Desinence)) :
    List (Int × String) :=
  match st.parent with
  | none => st.radicalRules
  | some par =>
    (des1.flatMap Prod.snd).foldl (fun acc d =>
      if (lookupA d.radNum acc).isSome then acc
      else match lookupA d.radNum par.radicalRules with
        | some rule => setRule acc d.radNum rule
        | none => acc) st.radicalRules

/-- Inheritance step 4 of `parseModel`: `m.Absents = m.parent.Absents` —
the child's absent list is *overwritten* by the parent's when a parent
exists. -/
def inheritAbs (st : PState) : List Int :=
  match st.parent with
  | none => st.absents
  | some par => par.absents

/-- Step 5 of `parseModel`: apply the buffered `suf:` suffixings over the
endings as they stand after inheritance, then append the results. -/
def applySuf (newId : Nat) (st : PState)
    (des1 : List (Int × List Desinence)) : List (Int × List Desinence) :=
  (st.sufEntries.flatMap fun p =>
    ((lookupA p.2 des1).getD []).map fun d =>
      (⟨d.grq ++ p.1, atone (d.grq ++ p.1), d.morphoNum, d.radNum,
        newId⟩ : Desinence)).foldl
    (fun acc ds => appendAt acc ds.morphoNum [ds]) des1

/-- `parseModel` (part_000) over pre-parsed directives: fold the
directives, then run the inheritance steps in source order — POS from the
parent when unset, parent endings for the slots the child does not define
(skipping the child's declared absents), radical rules for the radical
numbers its endings use, then `m.Absents = m.parent.Absents`, and finally
the buffered `suf:` suffixings over the post-inheritance endings.  A
nameless block yields `none`. -/
def parseModel (newId : Nat) (dirs : List Directive) : Option Model :=
  if (compileDirs newId dirs).name = "" then none
  else some (Model.mk newId (compileDirs newId dirs).name
    (compileDirs newId dirs).parent
    (inheritRules (compileDirs newId dirs)
      (inheritDes newId (compileDirs newId dirs)))
    (inheritAbs (compileDirs newId dirs))
    (applySuf newId (compileDirs newId dirs)
      (inheritDes newId (compileDirs newId dirs)))
    (inheritPos (compileDirs newId dirs)))

def cexC6Parent : Model := .mk 0 "p" none [] [7] [] 'n'

def cexC6Dirs : List Directive :=
  [.modele "c", .pere (some cexC6Parent), .abs [5]]

def cexC6Result : Model := .mk 1 "c" (some cexC6Parent) [] [7] [] 'n'

/-- C6, counterexample: a child that declares `abs:5` and inherits from a
parent whose absent set is `[7]` compiles to the absent set `[7]`: the
final `m.Absents = m.parent.Absents` *overwrites* the child's declared
absents instead of merging them, so the declared slot 5 is *not* in the
compiled set. -/
theorem C6_counterexample :
    parseModel 1 cexC6Dirs = some cexC6Result ∧
      ¬ ((5 : Int) ∈ cexC6Result.absents) ∧
      (7 : Int) ∈ cexC6Result.absents := by
  refine ⟨rfl, by decide, by decide⟩

/-- C6 (amended): after a model with a parent is compiled, its absent-slot
set is *exactly the parent's absent set*: every slot absent in the parent
is in the compiled child's absent set, while the slots the child declared
itself via `abs`/`abs+` are discarded by the final overwrite (they only
take part in the ending-inheritance and `sufd` skipping during
compilation). -/
theorem C6_absents_from_parent (newId : Nat) (dirs : List Directive)
    (m p : Model) (hm : parseModel newId dirs = some m)
    (hp : m.parent = some p) : m.absents = p.absents := by
  unfold parseModel at hm
  split_ifs at hm
  injection hm with hm
  subst hm
  simp only [Model.parent] at hp
  simp only [Model.absents, inheritAbs, hp]

/-- Witness for C6: the counterexample's compiled model satisfies the
amended claim — its absent set is its parent's. -/
theorem C6_witness : cexC6Result.absents = cexC6Parent.absents :=
  C6_absents_from_parent 1 cexC6Dirs cexC6Result cexC6Parent rfl rfl

/-! ## Claim C9: the morphological-description table (`loadMorphos`,
part_000) -/

/-- The text after the first `:` of a line (`line[strings.Index(line,
":")+1:]`); `none` when the line has no colon (such lines are skipped). -/
def afterColon : List Char → Option (List Char)
  | [] => none
  | c :: t => if c = ':' then some t else afterColon t

/-- The lines of a morphos file that contribute an entry: the
non-comment, colon-carrying lines before the first `! --- ` terminator. -/
def keptLines : List (List Char) → List (List Char)
  | [] => []
  | line :: rest =>
    if (tl "! --- ").isPrefixOf line then []
    else if (tl "!").isPrefixOf line then keptLines rest
    else match afterColon line with
      | none => keptLines rest
      | some _ => line :: keptLines rest

/-- The description-appending loop of `loadMorphos`. -/
def loadMorphosGo : List (List Char) → List (List Char)
  | [] => []
  | line :: rest =>
    if (tl "! --- ").isPrefixOf line then []
    else if (tl "!").isPrefixOf line then loadMorphosGo rest
    else match afterColon line with
      | none => loadMorphosGo rest
      | some desc => desc :: loadMorphosGo rest

/-- `loadMorphos` (part_000): starting from the constructor's `[""]`
(index 0 unused), append the text after the colon of every kept line, in
file order; the numeric prefix `N` of a line is never consulted. -/
def loadMorphos (lines : List (List Char)) : List (List Char) :=
  [[]] ++ loadMorphosGo lines

def cexC9Lines : List (List Char) := [tl "2:b", tl "1:a"]

def cexC9Lemmat : Lemmat := ⟨loadMorphos cexC9Lines, [], [], [], [], [], []⟩

/-- C9, counterexample: for the well-formed file `["2:b", "1:a"]` the
loaded table holds `b` at index 1 and `a` at index 2 — positions in the
file, not the numeric prefixes — so the entry at index `N = 2` is not the
description `b` of the line `2:b`. -/
theorem C9_counterexample :
    loadMorphos cexC9Lines = [[], tl "b", tl "a"] ∧
      cexC9Lemmat.morpho 2 = tl "a" ∧ cexC9Lemmat.morpho 2 ≠ tl "b" := by
  refine ⟨by decide, by decide, by decide⟩

theorem loadMorphosGo_eq_map (lines : List (List Char)) :
    loadMorphosGo lines =
      (keptLines lines).map fun l => (afterColon l).getD [] := by
  induction lines with
  | nil => rfl
  | cons line rest ih =>
    unfold loadMorphosGo keptLines
    by_cases h1 : (tl "! --- ").isPrefixOf line = true
    · rw [if_pos h1, if_pos h1]; rfl
    · rw [if_neg h1, if_neg h1]
      by_cases h2 : (tl "!").isPrefixOf line = true
      · rw [if_pos h2, if_pos h2]; exact ih
      · rw [if_neg h2, if_neg h2]
        cases hac : afterColon line with
        | none => exact ih
        | some desc => simp [hac, ih]

/-- C9 (amended): the loaded table is positional: the description of the
`j`-th kept line (0-based) lands at table index `j + 1`, whatever numeric
prefix the line carries; index `N` holds a line's description only when
the kept lines are numbered `1, 2, …` in file order (as in the shipped
data files). -/
theorem C9_morphos_positional (lines : List (List Char)) (j : Nat)
    (line desc : List Char) (hline : (keptLines lines)[j]? = some line)
    (hdesc : afterColon line = some desc) :
    (loadMorphos lines)[j + 1]? = some desc := by
  unfold loadMorphos
  rw [List.getElem?_append_right (by simp)]
  simp only [List.length_singleton, Nat.add_sub_cancel]
  rw [loadMorphosGo_eq_map]
  rw [List.getElem?_map, hline]
  simp [hdesc]

/-- Witness for C9: the first kept line of the counterexample file, `2:b`,
lands at index 1 (not at its numeric prefix 2). -/
theorem C9_witness : (loadMorphos cexC9Lines)[1]? = some (tl "b") :=
  C9_morphos_positional cexC9Lines 0 (tl "2:b") (tl "b") (by decide)
    (by decide)

end GoCollatinus
